import Mathlib

/-!
Verification development for the region-placement core of the `pd` placement
driver (files `server/core/region.go` and the schedule filter file).

Go pointer-typed protobuf messages (`*metapb.Peer`, `*metapb.Region`, ...)
are embedded as plain Lean values: the index never mutates a region snapshot
in place, so value semantics coincide with the Go pointer semantics for every
operation modelled here except the aliasing analysis, which gets a dedicated
heap-based embedding further below.  Machine integers: `uint64` becomes `Nat`
(with explicit `< 2^64` bounds where conversions matter) and `int64` becomes
`Int`, with the Go `uint64 -> int64` conversion modelled by `toInt64`.
-/

/-- A peer of a region: `metapb.Peer` (`{id, store_id, is_learner}`). -/
structure Peer where
  Id : Nat
  StoreId : Nat
  IsLearner : Bool
deriving DecidableEq, Repr

/-- Down-peer statistics: `pdpb.PeerStats` (`{peer, down_seconds}`). -/
structure PeerStats where
  DownPeer : Peer
  DownSeconds : Nat
deriving DecidableEq, Repr

/-- Region metadata: `metapb.Region` (`{id, start_key, end_key, region_epoch,
peers}`).  Keys are byte strings, modelled as lists of naturals; the epoch is
the pair `(conf_ver, version)`. -/
structure RegionMeta where
  Id : Nat
  StartKey : List Nat
  EndKey : List Nat
  ConfVer : Nat
  Version : Nat
  Peers : List Peer
deriving DecidableEq, Repr

/-- `core.RegionInfo`: the mutable snapshot of one key range
(`region.go:40-51`).  The embedded `*metapb.Region` is the `Region` field. -/
structure RegionInfo where
  Region : RegionMeta
  Learners : List Peer
  Voters : List Peer
  Leader : Option Peer
  DownPeers : List PeerStats
  PendingPeers : List Peer
  WrittenBytes : Nat
  ReadBytes : Nat
  ApproximateSize : Int
  ApproximateKeys : Int
deriving DecidableEq, Repr

/-- `classifyVoterAndLearner` (`region.go:65-77`): sorts the meta peers into
the `Learners` and `Voters` slices, preserving order. -/
def classifyVoterAndLearner (r : RegionInfo) : RegionInfo :=
  { r with
    Learners := r.Region.Peers.filter (fun p => p.IsLearner)
    Voters := r.Region.Peers.filter (fun p => !p.IsLearner) }

/-- `NewRegionInfo` (`region.go:54-62`). -/
def NewRegionInfo (region : RegionMeta) (leader : Option Peer) : RegionInfo :=
  classifyVoterAndLearner
    { Region := region, Learners := [], Voters := [], Leader := leader,
      DownPeers := [], PendingPeers := [], WrittenBytes := 0, ReadBytes := 0,
      ApproximateSize := 0, ApproximateKeys := 0 }

/-- The Go conversion `int64(n)` applied to a `uint64` value `n`:
two's-complement reinterpretation of `n % 2^64`. -/
def toInt64 (n : Nat) : Int :=
  if n % 2 ^ 64 < 2 ^ 63 then (n % 2 ^ 64 : Int) else (n % 2 ^ 64 : Int) - 2 ^ 64

/-- `EmptyRegionApproximateSize` (`region.go:81`). -/
def EmptyRegionApproximateSize : Nat := 1

/-- `pdpb.RegionHeartbeatRequest`, restricted to the fields read by
`RegionFromHeartbeat`.  `ApproximateSize` and `ApproximateKeys` are `uint64`
in the proto, so the faithful domain is `< 2^64`. -/
structure RegionHeartbeatRequest where
  HRegion : RegionMeta
  HLeader : Option Peer
  HDownPeers : List PeerStats
  HPendingPeers : List Peer
  BytesWritten : Nat
  BytesRead : Nat
  ApproximateSize : Nat
  ApproximateKeys : Nat
deriving DecidableEq, Repr

/-- `RegionFromHeartbeat` (`region.go:84-105`): converts the approximate size
from bytes to MB by `uint64` integer division, substitutes 1 for an empty
region, copies the remaining fields, and classifies the peers. -/
def RegionFromHeartbeat (heartbeat : RegionHeartbeatRequest) : RegionInfo :=
  let regionSize := heartbeat.ApproximateSize / 2 ^ 20
  let regionSize := if regionSize < EmptyRegionApproximateSize then EmptyRegionApproximateSize else regionSize
  classifyVoterAndLearner
    { Region := heartbeat.HRegion
      Learners := []
      Voters := []
      Leader := heartbeat.HLeader
      DownPeers := heartbeat.HDownPeers
      PendingPeers := heartbeat.HPendingPeers
      WrittenBytes := heartbeat.BytesWritten
      ReadBytes := heartbeat.BytesRead
      ApproximateSize := toInt64 regionSize
      ApproximateKeys := toInt64 heartbeat.ApproximateKeys }

/-- `RegionInfo.Clone` (`region.go:108-131`): every embedded message is
deep-copied (value copy here), and the voter/learner slices are rebuilt by
`classifyVoterAndLearner` from the copied meta peers. -/
def RegionInfo.Clone (r : RegionInfo) : RegionInfo :=
  classifyVoterAndLearner
    { Region := r.Region
      Learners := []
      Voters := []
      Leader := r.Leader
      DownPeers := r.DownPeers
      PendingPeers := r.PendingPeers
      WrittenBytes := r.WrittenBytes
      ReadBytes := r.ReadBytes
      ApproximateSize := r.ApproximateSize
      ApproximateKeys := r.ApproximateKeys }

/-- `RegionInfo.GetVoters` (`region.go:139-141`). -/
def RegionInfo.GetVoters (r : RegionInfo) : List Peer := r.Voters

/-- Association-list primitives standing in for Go's `map` type.  `lookupA`
returns the value at the (unique) occurrence of a key; `insertA` models map
assignment (replace the existing binding, else append); `eraseA` models
`delete`. -/
def lookupA {β : Type} : List (Nat × β) → Nat → Option β
  | [], _ => none
  | (k, v) :: rest, id => if k = id then some v else lookupA rest id

def insertA {β : Type} : List (Nat × β) → Nat → β → List (Nat × β)
  | [], k, v => [(k, v)]
  | (k0, v0) :: rest, k, v =>
      if k0 = k then (k, v) :: rest else (k0, v0) :: insertA rest k v

def eraseA {β : Type} : List (Nat × β) → Nat → List (Nat × β)
  | [], _ => []
  | (k0, v0) :: rest, k => if k0 = k then rest else (k0, v0) :: eraseA rest k

def keysA {β : Type} (m : List (Nat × β)) : List Nat := m.map Prod.fst

/-- `core.regionEntry` (`region.go:355-358`): the embedded `*RegionInfo`
(field `info`) together with its position in the id vector. -/
structure regionEntry where
  info : RegionInfo
  pos : Nat
deriving DecidableEq, Repr

/-- `core.regionMap` (`region.go:348-353`): map from region id to entry, the
id vector, and the two running totals. -/
structure regionMap where
  m : List (Nat × regionEntry)
  ids : List Nat
  totalSize : Int
  totalKeys : Int
deriving DecidableEq, Repr

/-- `newRegionMap` (`region.go:360-365`). -/
def newRegionMap : regionMap :=
  { m := [], ids := [], totalSize := 0, totalKeys := 0 }

/-- Body of `regionMap.Put` (`region.go:384-398`) on a non-nil receiver:
`Put` itself has no nil-receiver guard, see `regionMap.Put` below. -/
def regionMap.PutNN (rm : regionMap) (region : RegionInfo) : regionMap :=
  match lookupA rm.m region.Region.Id with
  | some old =>
      { rm with
        m := insertA rm.m region.Region.Id { old with info := region }
        totalSize := rm.totalSize + region.ApproximateSize - old.info.ApproximateSize
        totalKeys := rm.totalKeys + region.ApproximateKeys - old.info.ApproximateKeys }
  | none =>
      { m := insertA rm.m region.Region.Id { info := region, pos := rm.ids.length }
        ids := rm.ids ++ [region.Region.Id]
        totalSize := rm.totalSize + region.ApproximateSize
        totalKeys := rm.totalKeys + region.ApproximateKeys }

/-- Body of `regionMap.Get` (`region.go:374-382`) on a non-nil receiver. -/
def regionMap.GetNN (rm : regionMap) (id : Nat) : Option RegionInfo :=
  (lookupA rm.m id).map (fun e => e.info)

/-- Body of `regionMap.Delete` (`region.go:407-421`) on a non-nil receiver.
The inner `none` branch corresponds to `rm.m[rm.ids[len-1]]` yielding no
entry; in Go that mutates through a nil pointer (a panic), but it is
unreachable whenever the id vector is a permutation of the key set, which
every theorem below assumes or establishes, so it is modelled as a no-op. -/
def regionMap.DeleteNN (rm : regionMap) (id : Nat) : regionMap :=
  match lookupA rm.m id with
  | none => rm
  | some old =>
      let len := rm.m.length
      let lastId := rm.ids.getD (len - 1) 0
      match lookupA rm.m lastId with
      | none => rm
      | some last =>
          let last2 := { last with pos := old.pos }
          let m1 := insertA rm.m lastId last2
          let ids1 := rm.ids.set last2.pos last2.info.Region.Id
          { m := eraseA m1 id
            ids := ids1.take (len - 1)
            totalSize := rm.totalSize - old.info.ApproximateSize
            totalKeys := rm.totalKeys - old.info.ApproximateKeys }

/-- `regionMap.Len` (`region.go:367-372`): the receiver is a possibly-nil
pointer (`none` models the nil pointer), and the method guards it. -/
def regionMap.Len : Option regionMap → Nat
  | none => 0
  | some rm => rm.m.length

/-- `regionMap.Get` (`region.go:374-382`) with its nil-receiver guard. -/
def regionMap.Get : Option regionMap → Nat → Option RegionInfo
  | none, _ => none
  | some rm, id => rm.GetNN id

/-- `regionMap.Put` (`region.go:384-398`): the only `regionMap` method with
no nil-receiver guard; its first statement reads `rm.m`, which on a nil
receiver is a nil-pointer dereference (Go panic), modelled as `error`. -/
def regionMap.Put : Option regionMap → RegionInfo → Except Unit regionMap
  | none, _ => Except.error ()
  | some rm, region => Except.ok (rm.PutNN region)

/-- `regionMap.Delete` (`region.go:407-421`) with its nil-receiver guard
(a nil receiver is left untouched). -/
def regionMap.Delete : Option regionMap → Nat → Option regionMap
  | none, _ => none
  | some rm, id => some (rm.DeleteNN id)

/-- `regionMap.RandomRegion` (`region.go:400-405`): `rand.Intn (rm.Len())` is
modelled by the supplied draw `k` reduced modulo the length, which ranges
over exactly the values `rand.Intn` can produce. -/
def regionMap.RandomRegion (rm : Option regionMap) (k : Nat) : Option RegionInfo :=
  if regionMap.Len rm = 0 then none
  else
    match rm with
    | none => none
    | some rmv => regionMap.Get rm (rmv.ids.getD (k % regionMap.Len rm) 0)

/-- `regionMap.TotalSize` (`region.go:423-428`). -/
def regionMap.TotalSize (rm : Option regionMap) : Int :=
  if regionMap.Len rm = 0 then 0
  else
    match rm with
    | none => 0
    | some rmv => rmv.totalSize

/-- Strict byte-wise lexicographic order on keys. -/
def keyLtB : List Nat → List Nat → Bool
  | [], [] => false
  | [], _ :: _ => true
  | _ :: _, [] => false
  | a :: as, b :: bs => if a < b then true else if a = b then keyLtB as bs else false

/-- `k` lies strictly below an end key, where the empty end key is the
`+infinity` sentinel. -/
def beforeEnd (k endKey : List Nat) : Bool :=
  endKey.isEmpty || keyLtB k endKey

/-- Modelled from the spec: the `regionTree` source file is not under `src/`;
per section 4.2, two stored ranges overlap when the half-open intervals
`[startKey, endKey)` intersect, with the empty end key read as `+infinity`. -/
def regionOverlap (a b : RegionMeta) : Bool :=
  beforeEnd a.StartKey b.EndKey && beforeEnd b.StartKey a.EndKey

/-- Modelled from the spec: `regionTree.update` (section 4.2, source file
absent from `src/`) removes every stored range overlapping the new meta,
inserts the meta, and returns the removed list. -/
def treeUpdate (t : List RegionMeta) (meta : RegionMeta) :
    List RegionMeta × List RegionMeta :=
  let overlaps := t.filter (fun x => regionOverlap x meta)
  (meta :: t.filter (fun x => !regionOverlap x meta), overlaps)

/-- Modelled from the spec: `regionTree.remove` (section 4.2, source file
absent from `src/`) deletes the entry with the meta's start key only if it is
structurally equal (same id and epoch); otherwise it silently succeeds. -/
def treeRemove (t : List RegionMeta) (meta : RegionMeta) : List RegionMeta :=
  t.filter (fun x =>
    !(x.StartKey = meta.StartKey && x.Id = meta.Id &&
      x.ConfVer = meta.ConfVer && x.Version = meta.Version))

/-- Modelled from the spec: `regionTree.search` (section 4.2, source file
absent from `src/`) returns the region whose `[startKey, endKey)` contains
the probe key. -/
def treeSearch (t : List RegionMeta) (k : List Nat) : Option RegionMeta :=
  t.find? (fun m => (!keyLtB k m.StartKey) && beforeEnd k m.EndKey)

def pickMaxStart : List RegionMeta → Option RegionMeta
  | [] => none
  | x :: rest =>
      match pickMaxStart rest with
      | none => some x
      | some y => if keyLtB x.StartKey y.StartKey then some y else some x

def pickMinStart : List RegionMeta → Option RegionMeta
  | [] => none
  | x :: rest =>
      match pickMinStart rest with
      | none => some x
      | some y => if keyLtB y.StartKey x.StartKey then some y else some x

/-- Modelled from the spec: `regionTree.getAdjacentRegions` (section 4.2,
source file absent from `src/`) returns the entries with the immediately
smaller and immediately larger start key; no contiguity check happens here. -/
def treeGetAdjacent (t : List RegionMeta) (meta : RegionMeta) :
    Option RegionMeta × Option RegionMeta :=
  (pickMaxStart (t.filter (fun x => keyLtB x.StartKey meta.StartKey)),
   pickMinStart (t.filter (fun x => keyLtB meta.StartKey x.StartKey)))

def insertByStart (m : RegionMeta) : List RegionMeta → List RegionMeta
  | [] => [m]
  | x :: rest =>
      if keyLtB x.StartKey m.StartKey then x :: insertByStart m rest else m :: x :: rest

def sortByStart : List RegionMeta → List RegionMeta
  | [] => []
  | x :: rest => insertByStart x (sortByStart rest)

/-- Modelled from the spec: the portion of `regionTree.scanRange`
(section 4.2, source file absent from `src/`) that enumerates, in ascending
start-key order, all stored regions whose start key is at least the probe. -/
def treeScanList (t : List RegionMeta) (startKey : List Nat) : List RegionMeta :=
  sortByStart (t.filter (fun m => !keyLtB m.StartKey startKey))

/-- `core.RegionsInfo` (`region.go:431-438`): the tree plus the global region
map and the four per-store bucket maps.  A bucket lookup miss models Go's nil
`*regionMap`. -/
structure RegionsInfo where
  tree : List RegionMeta
  regions : regionMap
  leaders : List (Nat × regionMap)
  followers : List (Nat × regionMap)
  learners : List (Nat × regionMap)
  pendingPeers : List (Nat × regionMap)
deriving DecidableEq, Repr

/-- `NewRegionsInfo` (`region.go:441-450`). -/
def NewRegionsInfo : RegionsInfo :=
  { tree := [], regions := newRegionMap, leaders := [], followers := [],
    learners := [], pendingPeers := [] }

/-- `RegionsInfo.GetRegion` (`region.go:453-459`): look up the stored
snapshot and return a deep clone. -/
def RegionsInfo.GetRegion (r : RegionsInfo) (regionID : Nat) : Option RegionInfo :=
  match r.regions.GetNN regionID with
  | none => none
  | some region => some region.Clone

/-- Lazily-allocated per-store bucket insertion (`region.go:496-534`): fetch
the store's map, allocating it on demand, and `Put` the region. -/
def bucketPut (buckets : List (Nat × regionMap)) (storeID : Nat)
    (region : RegionInfo) : List (Nat × regionMap) :=
  match lookupA buckets storeID with
  | none => insertA buckets storeID (newRegionMap.PutNN region)
  | some store => insertA buckets storeID (store.PutNN region)

/-- Per-store bucket deletion (`region.go:548-551`): `Delete` on the possibly
missing (nil) per-store map, which is then a no-op. -/
def bucketDelete (buckets : List (Nat × regionMap)) (storeID : Nat)
    (id : Nat) : List (Nat × regionMap) :=
  match lookupA buckets storeID with
  | none => buckets
  | some store => insertA buckets storeID (store.DeleteNN id)

/-- `RegionsInfo.RemoveRegion` (`region.go:540-553`). -/
def RegionsInfo.RemoveRegion (r : RegionsInfo) (region : RegionInfo) : RegionsInfo :=
  let r1 := { r with
    tree := treeRemove r.tree region.Region
    regions := r.regions.DeleteNN region.Region.Id }
  region.Region.Peers.foldl (fun acc peer =>
    { acc with
      leaders := bucketDelete acc.leaders peer.StoreId region.Region.Id
      followers := bucketDelete acc.followers peer.StoreId region.Region.Id
      learners := bucketDelete acc.learners peer.StoreId region.Region.Id
      pendingPeers := bucketDelete acc.pendingPeers peer.StoreId region.Region.Id }) r1

/-- `RegionsInfo.AddRegion` (`region.go:480-537`).  The overlap loop calls
`RemoveRegion (r.GetRegion item.Id)`; a missing id there would hand
`RemoveRegion` a nil pointer and panic in Go, modelled as `error`.  When the
region has no leader the function returns right after the tree and global-map
update, before any per-store bucket is touched. -/
def RegionsInfo.AddRegion (r : RegionsInfo) (region : RegionInfo) :
    Except Unit (RegionsInfo × List RegionMeta) :=
  match (treeUpdate r.tree region.Region).2.foldlM (fun acc item =>
    match RegionsInfo.GetRegion acc item.Id with
    | none => Except.error ()
    | some reg => Except.ok (acc.RemoveRegion reg))
    { r with tree := (treeUpdate r.tree region.Region).1 } with
  | Except.error e => Except.error e
  | Except.ok r2 =>
      let r3 := { r2 with regions := r2.regions.PutNN region }
      match region.Leader with
      | none => Except.ok (r3, (treeUpdate r.tree region.Region).2)
      | some leader =>
          let r4 := region.GetVoters.foldl (fun acc peer =>
            if peer.Id = leader.Id then
              { acc with leaders := bucketPut acc.leaders peer.StoreId region }
            else
              { acc with followers := bucketPut acc.followers peer.StoreId region }) r3
          let r5 := region.Learners.foldl (fun acc peer =>
            { acc with learners := bucketPut acc.learners peer.StoreId region }) r4
          let r6 := region.PendingPeers.foldl (fun acc peer =>
            { acc with pendingPeers := bucketPut acc.pendingPeers peer.StoreId region }) r5
          Except.ok (r6, (treeUpdate r.tree region.Region).2)

/-- `RegionsInfo.SetRegion` (`region.go:462-467`). -/
def RegionsInfo.SetRegion (r : RegionsInfo) (region : RegionInfo) :
    Except Unit (RegionsInfo × List RegionMeta) :=
  match r.regions.GetNN region.Region.Id with
  | some origin => (r.RemoveRegion origin).AddRegion region
  | none => r.AddRegion region

/-- `RegionsInfo.GetAdjacentRegions` (`region.go:668-679`): query the tree
for both neighbours, then suppress a neighbour unless its range is exactly
contiguous with the probe region (`bytes.Equal` on the boundary keys). -/
def RegionsInfo.GetAdjacentRegions (r : RegionsInfo) (region : RegionInfo) :
    Option RegionInfo × Option RegionInfo :=
  let mp := treeGetAdjacent r.tree region.Region
  let prev := match mp.1 with
    | some metaPrev =>
        if metaPrev.EndKey = region.Region.StartKey then r.GetRegion metaPrev.Id else none
    | none => none
  let next := match mp.2 with
    | some metaNext =>
        if region.Region.EndKey = metaNext.StartKey then r.GetRegion metaNext.Id else none
    | none => none
  (prev, next)

/-- `randomRegionMaxRetry` (`region.go:750`). -/
def randomRegionMaxRetry : Nat := 10

/-- The retry loop of `randRegion` (`region.go:752-770`), with the loop
counter `i` and the remaining fuel made explicit; the random draws come from
the oracle `picks`. -/
def randRegionLoop (regions : Option regionMap) (picks : Nat → Nat)
    (opts : List (RegionInfo → Bool)) : Nat → Nat → Option RegionInfo
  | _, 0 => none
  | i, fuel + 1 =>
      match regionMap.RandomRegion regions (picks i) with
      | none => none
      | some region =>
          if opts.all (fun opt => opt region) then some region
          else randRegionLoop regions picks opts (i + 1) fuel

/-- `randRegion` (`region.go:752-770`). -/
def randRegion (regions : Option regionMap) (picks : Nat → Nat)
    (opts : List (RegionInfo → Bool)) : Option RegionInfo :=
  randRegionLoop regions picks opts 0 randomRegionMaxRetry

/-- `RegionsInfo.RandRegion` (`region.go:633-635`). -/
def RegionsInfo.RandRegion (r : RegionsInfo) (picks : Nat → Nat)
    (opts : List (RegionInfo → Bool)) : Option RegionInfo :=
  randRegion (some r.regions) picks opts

/-- `RegionsInfo.RandLeaderRegion` (`region.go:638-640`): the store's map may
be absent (nil). -/
def RegionsInfo.RandLeaderRegion (r : RegionsInfo) (storeID : Nat)
    (picks : Nat → Nat) (opts : List (RegionInfo → Bool)) : Option RegionInfo :=
  randRegion (lookupA r.leaders storeID) picks opts

/-- `RegionsInfo.RandFollowerRegion` (`region.go:643-645`). -/
def RegionsInfo.RandFollowerRegion (r : RegionsInfo) (storeID : Nat)
    (picks : Nat → Nat) (opts : List (RegionInfo → Bool)) : Option RegionInfo :=
  randRegion (lookupA r.followers storeID) picks opts

/-- `RegionInfo.GetFollowers` (`region.go:276-285`): build the Go map
`storeId -> peer` over the voters, skipping the peer whose id matches the
leader's; map assignment is last-wins. -/
def RegionInfo.GetFollowers (r : RegionInfo) : List (Nat × Peer) :=
  r.GetVoters.foldl (fun followers peer =>
    match r.Leader with
    | none => insertA followers peer.StoreId peer
    | some leader =>
        if leader.Id ≠ peer.Id then insertA followers peer.StoreId peer else followers) []

/-- `RegionInfo.GetFollower` (`region.go:288-295`): the first voter not
matching the leader's peer id. -/
def RegionInfo.GetFollower (r : RegionInfo) : Option Peer :=
  r.GetVoters.find? (fun peer =>
    match r.Leader with
    | none => true
    | some leader => leader.Id ≠ peer.Id)

/-- One step of a workload on a single `regionMap`: a `Put` or a `Delete`. -/
inductive RMOp where
  | putOp : RegionInfo → RMOp
  | delOp : Nat → RMOp

def applyOp (rm : regionMap) : RMOp → regionMap
  | RMOp.putOp region => rm.PutNN region
  | RMOp.delOp id => rm.DeleteNN id

def applyOps (rm : regionMap) (ops : List RMOp) : regionMap :=
  ops.foldl applyOp rm

/-- `core.StoreInfo`, restricted to the two observations the distinct-score
filter makes: the store id and the label set (spec section 6). -/
structure StoreInfo where
  Id : Nat
  Labels : List (String × String)
deriving DecidableEq, Repr

/-- The score type of `DistinctScore`.  The function itself lives in a core
source file absent from `src/`; per the spec it is only "a pure function
`(labels, stores, candidate) -> float` that is deterministic", so the filter
is parameterised over an arbitrary such function, with the float scores
abstracted to rationals (only their linear order is ever consulted). -/
def ScoreFn : Type := List String → List StoreInfo → StoreInfo → ℚ

/-- `distinctScoreFilter` (`filter.go`, `src/unnamed/part_000:267-271`). -/
structure distinctScoreFilter where
  labels : List String
  stores : List StoreInfo
  safeScore : ℚ

/-- `NewDistinctScoreFilter` (`src/unnamed/part_000:275-289`): drop every
peer store whose id equals the source's id, and capture the source's distinct
score over the remaining stores as the safe score. -/
def NewDistinctScoreFilter (DistinctScore : ScoreFn) (labels : List String)
    (stores : List StoreInfo) (source : StoreInfo) : distinctScoreFilter :=
  let newStores := stores.filter (fun s => s.Id ≠ source.Id)
  { labels := labels
    stores := newStores
    safeScore := DistinctScore labels newStores source }

/-- `distinctScoreFilter.FilterSource` (`src/unnamed/part_000:295-297`):
never rejects. -/
def distinctScoreFilter.FilterSource (_f : distinctScoreFilter)
    (_store : StoreInfo) : Bool :=
  false

/-- `distinctScoreFilter.FilterTarget` (`src/unnamed/part_000:299-301`). -/
def distinctScoreFilter.FilterTarget (DistinctScore : ScoreFn)
    (f : distinctScoreFilter) (store : StoreInfo) : Bool :=
  DistinctScore f.labels f.stores store < f.safeScore

/-!  Heap-based embedding for the aliasing analysis (claim about deep clones
on the query surface).  A `*RegionInfo` is an address into a heap of region
snapshots; `proto.Clone` allocates a fresh cell.  -/

/-- A heap of `RegionInfo` cells and a bump allocator. -/
structure Heap where
  mem : Nat → RegionInfo
  next : Nat

def Heap.read (h : Heap) (a : Nat) : RegionInfo := h.mem a

def Heap.write (h : Heap) (a : Nat) (v : RegionInfo) : Heap :=
  { h with mem := fun b => if b = a then v else h.mem b }

def Heap.alloc (h : Heap) (v : RegionInfo) : Heap × Nat :=
  ({ mem := fun b => if b = h.next then v else h.mem b, next := h.next + 1 }, h.next)

/-- `RegionInfo.Clone` at the heap level: allocate a fresh cell holding the
deep copy of the pointee. -/
def CloneH (h : Heap) (a : Nat) : Heap × Nat :=
  Heap.alloc h (h.read a).Clone

/-- `regionEntry` at the heap level: the embedded `*RegionInfo` pointer. -/
structure regionEntryH where
  addr : Nat
  pos : Nat
deriving DecidableEq, Repr

/-- `regionMap` at the heap level: the entries hold addresses. -/
structure regionMapH where
  m : List (Nat × regionEntryH)
  ids : List Nat
  totalSize : Int
  totalKeys : Int
deriving DecidableEq, Repr

/-- `regionMap.Len` on a possibly-nil heap-level map. -/
def regionMapHLen : Option regionMapH → Nat
  | none => 0
  | some rm => rm.m.length

/-- `regionMap.Get` at the heap level: returns the stored pointer itself
(`region.go:374-382` returns `entry.RegionInfo` without copying). -/
def regionMapHGet : Option regionMapH → Nat → Option Nat
  | none, _ => none
  | some rm, id => (lookupA rm.m id).map (fun e => e.addr)

/-- `regionMap.RandomRegion` at the heap level. -/
def regionMapHRandom (rm : Option regionMapH) (k : Nat) : Option Nat :=
  if regionMapHLen rm = 0 then none
  else
    match rm with
    | none => none
    | some rmv => regionMapHGet rm (rmv.ids.getD (k % regionMapHLen rm) 0)

/-- `core.RegionsInfo` at the heap level. -/
structure RegionsInfoH where
  tree : List RegionMeta
  regions : regionMapH
  leaders : List (Nat × regionMapH)
  followers : List (Nat × regionMapH)
  learners : List (Nat × regionMapH)
  pendingPeers : List (Nat × regionMapH)

/-- `RegionsInfo.GetRegion` at the heap level (`region.go:453-459`): look up
the stored pointer and return a freshly allocated deep clone. -/
def GetRegionH (s : RegionsInfoH) (h : Heap) (regionID : Nat) :
    Option (Heap × Nat) :=
  match regionMapHGet (some s.regions) regionID with
  | none => none
  | some a => some (CloneH h a)

/-- `RegionsInfo.SearchRegion` at the heap level (`region.go:556-562`). -/
def searchRegionH (s : RegionsInfoH) (h : Heap) (regionKey : List Nat) :
    Option (Heap × Nat) :=
  match treeSearch s.tree regionKey with
  | none => none
  | some region => GetRegionH s h region.Id

/-- The accumulation loop of `RegionsInfo.ScanRange` (`region.go:658-665`):
append `GetRegion` of each visited region (`none` models the nil pointer Go
appends when the id misses) and stop once the result reaches `limit`. -/
def scanCollect (s : RegionsInfoH) (limit : Nat) :
    Heap → List RegionMeta → List (Option Nat) → Heap × List (Option Nat)
  | h, [], acc => (h, acc.reverse)
  | h, meta :: rest, acc =>
      let pr := match GetRegionH s h meta.Id with
        | none => (h, (none : Option Nat))
        | some (h2, a) => (h2, some a)
      let acc2 := pr.2 :: acc
      if acc2.length < limit then scanCollect s limit pr.1 rest acc2
      else (pr.1, acc2.reverse)

/-- `RegionsInfo.ScanRange` at the heap level (`region.go:658-665`). -/
def scanRangeH (s : RegionsInfoH) (h : Heap) (startKey : List Nat)
    (limit : Nat) : Heap × List (Option Nat) :=
  scanCollect s limit h (treeScanList s.tree startKey) []

/-- The retry loop of `randRegion` at the heap level: region predicates
observe the pointee. -/
def randRegionLoopH (h : Heap) (regions : Option regionMapH) (picks : Nat → Nat)
    (opts : List (RegionInfo → Bool)) : Nat → Nat → Option Nat
  | _, 0 => none
  | i, fuel + 1 =>
      match regionMapHRandom regions (picks i) with
      | none => none
      | some a =>
          if opts.all (fun opt => opt (h.read a)) then some a
          else randRegionLoopH h regions picks opts (i + 1) fuel

/-- `randRegion` at the heap level (`region.go:752-770`): the sampled stored
pointer is returned as-is, with no clone. -/
def randRegionH (h : Heap) (regions : Option regionMapH) (picks : Nat → Nat)
    (opts : List (RegionInfo → Bool)) : Option Nat :=
  randRegionLoopH h regions picks opts 0 randomRegionMaxRetry

/-- `RegionsInfo.RandRegion` at the heap level (`region.go:633-635`). -/
def RandRegionH (s : RegionsInfoH) (h : Heap) (picks : Nat → Nat)
    (opts : List (RegionInfo → Bool)) : Option Nat :=
  randRegionH h (some s.regions) picks opts

/-- `RegionsInfo.RandLeaderRegion` at the heap level (`region.go:638-640`). -/
def RandLeaderRegionH (s : RegionsInfoH) (h : Heap) (storeID : Nat)
    (picks : Nat → Nat) (opts : List (RegionInfo → Bool)) : Option Nat :=
  randRegionH h (lookupA s.leaders storeID) picks opts

/-- `RegionsInfo.RandFollowerRegion` at the heap level (`region.go:643-645`). -/
def RandFollowerRegionH (s : RegionsInfoH) (h : Heap) (storeID : Nat)
    (picks : Nat → Nat) (opts : List (RegionInfo → Bool)) : Option Nat :=
  randRegionH h (lookupA s.followers storeID) picks opts

/-- The addresses stored in a list of per-store heap-level buckets. -/
def addrsOfBuckets : List (Nat × regionMapH) → List Nat
  | [] => []
  | p :: rest => p.2.m.map (fun q => q.2.addr) ++ addrsOfBuckets rest

/-- Every address the index keeps a live pointer to. -/
def storedAddrsH (s : RegionsInfoH) : List Nat :=
  s.regions.m.map (fun q => q.2.addr) ++ addrsOfBuckets s.leaders ++
    addrsOfBuckets s.followers ++ addrsOfBuckets s.learners ++
    addrsOfBuckets s.pendingPeers

/-- Well-formedness of a heap-level state: every stored pointer was
previously allocated, so it lies below the allocation frontier. -/
def WFH (s : RegionsInfoH) (h : Heap) : Prop :=
  ∀ a ∈ storedAddrsH s, a < h.next

theorem lookupA_mem {β : Type} {m : List (Nat × β)} {k : Nat} {v : β}
    (h : lookupA m k = some v) : (k, v) ∈ m := by
  induction m with
  | nil => simp [lookupA] at h
  | cons p rest ih =>
      obtain ⟨k0, v0⟩ := p
      simp only [lookupA] at h
      split at h
      · rename_i hk
        injection h with h
        subst hk h
        exact List.mem_cons_self _ _
      · exact List.mem_cons_of_mem _ (ih h)

theorem mem_keysA_of_lookupA {β : Type} {m : List (Nat × β)} {k : Nat} {v : β}
    (h : lookupA m k = some v) : k ∈ keysA m :=
  List.mem_map.mpr ⟨(k, v), lookupA_mem h, rfl⟩

theorem lookupA_eq_none {β : Type} {m : List (Nat × β)} {k : Nat} :
    lookupA m k = none ↔ k ∉ keysA m := by
  induction m with
  | nil => simp [lookupA, keysA]
  | cons p rest ih =>
      obtain ⟨k0, v0⟩ := p
      simp only [lookupA, keysA, List.map_cons, List.mem_cons]
      split
      · rename_i hk
        subst hk
        simp
      · rename_i hk
        simp only [keysA] at ih
        rw [ih]
        constructor
        · intro hnot hor
          rcases hor with hor | hor
          · exact hk hor.symm
          · exact hnot hor
        · intro hnot hmem
          exact hnot (Or.inr hmem)

theorem lookupA_of_mem_keys {β : Type} {m : List (Nat × β)} {k : Nat}
    (h : k ∈ keysA m) : ∃ v, lookupA m k = some v := by
  cases hv : lookupA m k with
  | none => exact absurd h (lookupA_eq_none.mp hv)
  | some v => exact ⟨v, rfl⟩

theorem lookupA_insertA {β : Type} (m : List (Nat × β)) (k : Nat) (v : β)
    (k2 : Nat) :
    lookupA (insertA m k v) k2 = if k2 = k then some v else lookupA m k2 := by
  induction m with
  | nil =>
      simp only [insertA, lookupA]
      by_cases hk : k2 = k
      · subst hk; simp
      · simp [hk, Ne.symm hk]
  | cons p rest ih =>
      obtain ⟨k0, v0⟩ := p
      simp only [insertA]
      split
      · rename_i hk0
        subst hk0
        simp only [lookupA]
        by_cases hk : k2 = k0
        · subst hk; simp
        · simp [hk, Ne.symm hk]
      · rename_i hk0
        simp only [lookupA]
        by_cases hk : k0 = k2
        · subst hk
          have : ¬ k0 = k := hk0
          simp [Ne.symm (fun h => hk0 h.symm)]
        · simp [hk, ih]

theorem insertA_of_not_mem_keys {β : Type} {m : List (Nat × β)} {k : Nat}
    (v : β) (h : k ∉ keysA m) : insertA m k v = m ++ [(k, v)] := by
  induction m with
  | nil => simp [insertA]
  | cons p rest ih =>
      obtain ⟨k0, v0⟩ := p
      simp only [keysA, List.map_cons, List.mem_cons] at h
      push_neg at h
      simp only [insertA]
      rw [if_neg (fun he => h.1 he.symm)]
      simp only [List.cons_append, List.cons.injEq, true_and]
      exact ih h.2

theorem keysA_insertA_of_mem_keys {β : Type} {m : List (Nat × β)} {k : Nat}
    (v : β) (h : k ∈ keysA m) : keysA (insertA m k v) = keysA m := by
  induction m with
  | nil => simp [keysA] at h
  | cons p rest ih =>
      obtain ⟨k0, v0⟩ := p
      simp only [keysA, List.map_cons, List.mem_cons] at h
      simp only [insertA]
      split
      · rename_i hk0
        subst hk0
        simp [keysA]
      · rename_i hk0
        rcases h with h | h
        · exact absurd h.symm hk0
        · have hr := ih h
          simp only [keysA, List.map_cons] at hr ⊢
          rw [hr]

theorem mem_insertA_iff {β : Type} {m : List (Nat × β)} {k : Nat} {v : β}
    (hnd : (keysA m).Nodup) (k2 : Nat) (v2 : β) :
    (k2, v2) ∈ insertA m k v ↔ (k2 = k ∧ v2 = v) ∨ ((k2, v2) ∈ m ∧ k2 ≠ k) := by
  induction m with
  | nil =>
      simp only [insertA, List.mem_singleton, List.not_mem_nil, false_and, or_false,
        Prod.mk.injEq]
  | cons p rest ih =>
      obtain ⟨k0, v0⟩ := p
      simp only [keysA, List.map_cons, List.nodup_cons] at hnd
      simp only [insertA]
      split
      · rename_i hk0
        subst hk0
        simp only [List.mem_cons, Prod.mk.injEq]
        constructor
        · intro hmem
          rcases hmem with ⟨h1, h2⟩ | hmem
          · exact Or.inl ⟨h1, h2⟩
          · have hk2 : k2 ≠ k0 := by
              intro he
              subst he
              exact hnd.1 (List.mem_map.mpr ⟨(k2, v2), hmem, rfl⟩)
            exact Or.inr ⟨Or.inr hmem, hk2⟩
        · intro hmem
          rcases hmem with ⟨h1, h2⟩ | ⟨hmem, hne⟩
          · exact Or.inl ⟨h1, h2⟩
          · rcases hmem with ⟨h1, _⟩ | hmem
            · exact absurd h1 hne
            · exact Or.inr hmem
      · rename_i hk0
        simp only [List.mem_cons, Prod.mk.injEq]
        rw [ih hnd.2]
        constructor
        · intro hmem
          rcases hmem with ⟨h1, h2⟩ | ⟨h1, h2⟩ | ⟨hmem, hne⟩
          · refine Or.inr ⟨Or.inl ⟨h1, h2⟩, ?_⟩
            intro he
            apply hk0
            rw [← h1]
            exact he
          · exact Or.inl ⟨h1, h2⟩
          · exact Or.inr ⟨Or.inr hmem, hne⟩
        · intro hmem
          rcases hmem with ⟨h1, h2⟩ | ⟨hmem, hne⟩
          · exact Or.inr (Or.inl ⟨h1, h2⟩)
          · rcases hmem with ⟨h1, h2⟩ | hmem
            · exact Or.inl ⟨h1, h2⟩
            · exact Or.inr (Or.inr ⟨hmem, hne⟩)

theorem mem_eraseA {β : Type} {m : List (Nat × β)} {k : Nat} {p : Nat × β}
    (h : p ∈ eraseA m k) : p ∈ m := by
  induction m with
  | nil => simp [eraseA] at h
  | cons q rest ih =>
      obtain ⟨k0, v0⟩ := q
      simp only [eraseA] at h
      split at h
      · exact List.mem_cons_of_mem _ h
      · rcases List.mem_cons.mp h with h | h
        · exact h ▸ List.mem_cons_self _ _
        · exact List.mem_cons_of_mem _ (ih h)

theorem keysA_eraseA {β : Type} {m : List (Nat × β)} (k : Nat) :
    keysA (eraseA m k) = (keysA m).erase k := by
  induction m with
  | nil => simp [eraseA, keysA]
  | cons q rest ih =>
      obtain ⟨k0, v0⟩ := q
      simp only [eraseA, keysA, List.map_cons]
      split
      · rename_i hk0
        subst hk0
        rw [List.erase_cons_head]
      · rename_i hk0
        rw [List.erase_cons_tail]
        · simp only [keysA, List.map_cons] at ih ⊢
          rw [ih]
        · simpa using hk0

theorem mem_eraseA_ne {β : Type} {m : List (Nat × β)} {k k2 : Nat} {v2 : β}
    (hnd : (keysA m).Nodup) (h : (k2, v2) ∈ eraseA m k) : (k2, v2) ∈ m ∧ k2 ≠ k := by
  refine ⟨mem_eraseA h, ?_⟩
  intro he
  subst he
  have : k2 ∈ keysA (eraseA m k2) := List.mem_map.mpr ⟨(k2, v2), h, rfl⟩
  rw [keysA_eraseA] at this
  exact (List.Nodup.not_mem_erase hnd) this

theorem lookupA_unique {β : Type} {m : List (Nat × β)} {k : Nat} {v : β}
    (hnd : (keysA m).Nodup) (h : (k, v) ∈ m) : lookupA m k = some v := by
  induction m with
  | nil => simp at h
  | cons q rest ih =>
      obtain ⟨k0, v0⟩ := q
      simp only [keysA, List.map_cons, List.nodup_cons] at hnd
      rcases List.mem_cons.mp h with h | h
      · obtain ⟨h1, h2⟩ := Prod.mk.injEq .. ▸ h
        subst h1
        simp [lookupA, h2.symm]
      · have hk : k0 ≠ k := by
          intro he
          subst he
          exact hnd.1 (List.mem_map.mpr ⟨(k0, v), h, rfl⟩)
        simp only [lookupA, if_neg hk]
        exact ih hnd.2 h

def sumA {β : Type} (f : β → Int) (m : List (Nat × β)) : Int :=
  (m.map (fun p => f p.2)).sum

theorem sumA_append {β : Type} (f : β → Int) (m1 m2 : List (Nat × β)) :
    sumA f (m1 ++ m2) = sumA f m1 + sumA f m2 := by
  simp [sumA]

theorem sumA_insertA {β : Type} (f : β → Int) {m : List (Nat × β)} {k : Nat}
    {e : β} (v : β) (h : lookupA m k = some e) :
    sumA f (insertA m k v) = sumA f m - f e + f v := by
  induction m with
  | nil => simp [lookupA] at h
  | cons p rest ih =>
      obtain ⟨k0, v0⟩ := p
      simp only [lookupA] at h
      simp only [insertA]
      split
      · rename_i hk0
        rw [if_pos hk0] at h
        injection h with h
        subst h
        simp [sumA]
        ring
      · rename_i hk0
        rw [if_neg hk0] at h
        simp only [sumA, List.map_cons, List.sum_cons]
        have := ih h
        simp only [sumA] at this
        rw [this]
        ring

theorem sumA_eraseA {β : Type} (f : β → Int) {m : List (Nat × β)} {k : Nat}
    {e : β} (h : lookupA m k = some e) :
    sumA f (eraseA m k) = sumA f m - f e := by
  induction m with
  | nil => simp [lookupA] at h
  | cons p rest ih =>
      obtain ⟨k0, v0⟩ := p
      simp only [lookupA] at h
      simp only [eraseA]
      split
      · rename_i hk0
        rw [if_pos hk0] at h
        injection h with h
        subst h
        simp [sumA]
      · rename_i hk0
        rw [if_neg hk0] at h
        simp only [sumA, List.map_cons, List.sum_cons]
        have := ih h
        simp only [sumA] at this
        rw [this]
        ring

theorem insertA_lookup_self {β : Type} {m : List (Nat × β)} {k : Nat} {v : β}
    (h : lookupA m k = some v) : insertA m k v = m := by
  induction m with
  | nil => simp [lookupA] at h
  | cons p rest ih =>
      obtain ⟨k0, v0⟩ := p
      simp only [lookupA] at h
      simp only [insertA]
      split
      · rename_i hk0
        rw [if_pos hk0] at h
        injection h with h
        subst h hk0
        rfl
      · rename_i hk0
        rw [if_neg hk0] at h
        rw [ih h]

theorem take_set_of_le {α : Type} (l : List α) (i j : Nat) (v : α)
    (h : j ≤ i) : (l.set i v).take j = l.take j := by
  induction l generalizing i j with
  | nil => simp
  | cons x rest ih =>
      cases i with
      | zero =>
          have : j = 0 := Nat.le_zero.mp h
          subst this
          simp
      | succ i2 =>
          cases j with
          | zero => simp
          | succ j2 =>
              simp only [List.set_cons_succ, List.take_succ_cons, List.cons.injEq, true_and]
              exact ih i2 j2 (Nat.succ_le_succ_iff.mp h)

/-- Invariant 5 of spec section 3 for one `regionMap`: distinct keys, the id
vector is a permutation of the key set, and each entry's `pos` indexes its
own id in the vector. -/
def regionMap.WFids (rm : regionMap) : Prop :=
  (keysA rm.m).Nodup ∧ List.Perm rm.ids (keysA rm.m) ∧
    ∀ ke ∈ rm.m, rm.ids[ke.2.pos]? = some ke.1

/-- Each entry is stored under its own region id (established by `Put`). -/
def regionMap.WFkeys (rm : regionMap) : Prop :=
  ∀ ke ∈ rm.m, ke.2.info.Region.Id = ke.1

/-- Invariant 4 of spec section 3: the running totals equal the sums of the
resident regions' approximate sizes and key counts. -/
def regionMap.WFtotals (rm : regionMap) : Prop :=
  rm.totalSize = sumA (fun e => e.info.ApproximateSize) rm.m ∧
    rm.totalKeys = sumA (fun e => e.info.ApproximateKeys) rm.m

/-- The full `regionMap` invariant. -/
def regionMap.Inv (rm : regionMap) : Prop :=
  rm.WFids ∧ rm.WFkeys ∧ rm.WFtotals

theorem regionMap_inv_put (rm : regionMap) (region : RegionInfo)
    (h : rm.Inv) : (rm.PutNN region).Inv := by
  obtain ⟨⟨hnd, hperm, hpos⟩, hkeys, hts, htk⟩ := h
  cases hlook : lookupA rm.m region.Region.Id with
  | some old =>
      have hmem : region.Region.Id ∈ keysA rm.m := mem_keysA_of_lookupA hlook
      have hkeq : keysA (insertA rm.m region.Region.Id { old with info := region }) =
          keysA rm.m := keysA_insertA_of_mem_keys _ hmem
      simp only [regionMap.PutNN, hlook]
      refine ⟨⟨?_, ?_, ?_⟩, ?_, ?_, ?_⟩
      · rw [hkeq]; exact hnd
      · rw [hkeq]; exact hperm
      · intro ke hke
        obtain ⟨k2, v2⟩ := ke
        rcases (mem_insertA_iff hnd k2 v2).mp hke with ⟨hk, hv⟩ | ⟨hmem2, _⟩
        · subst hk hv
          exact hpos (region.Region.Id, old) (lookupA_mem hlook)
        · exact hpos (k2, v2) hmem2
      · intro ke hke
        obtain ⟨k2, v2⟩ := ke
        rcases (mem_insertA_iff hnd k2 v2).mp hke with ⟨hk, hv⟩ | ⟨hmem2, _⟩
        · subst hk hv
          rfl
        · exact hkeys (k2, v2) hmem2
      · simp only [sumA_insertA _ _ hlook, hts]
        omega
      · simp only [sumA_insertA _ _ hlook, htk]
        omega
  | none =>
      have hnotmem : region.Region.Id ∉ keysA rm.m := lookupA_eq_none.mp hlook
      have happ : insertA rm.m region.Region.Id
          { info := region, pos := rm.ids.length } =
          rm.m ++ [(region.Region.Id, { info := region, pos := rm.ids.length })] :=
        insertA_of_not_mem_keys _ hnotmem
      have hkapp : keysA (rm.m ++
          [(region.Region.Id, ({ info := region, pos := rm.ids.length } : regionEntry))]) =
          keysA rm.m ++ [region.Region.Id] := by
        simp [keysA]
      simp only [regionMap.PutNN, hlook, happ]
      refine ⟨⟨?_, ?_, ?_⟩, ?_, ?_, ?_⟩
      · rw [hkapp]
        exact ((List.perm_append_singleton _ _).nodup_iff).mpr
          (List.nodup_cons.mpr ⟨hnotmem, hnd⟩)
      · rw [hkapp]
        exact hperm.append_right _
      · intro ke hke
        obtain ⟨k2, v2⟩ := ke
        rcases List.mem_append.mp hke with hmem2 | hmem2
        · have hp := hpos (k2, v2) hmem2
          have hlt : v2.pos < rm.ids.length := (List.getElem?_eq_some.mp hp).1
          rw [List.getElem?_append_left hlt]
          exact hp
        · rcases List.mem_singleton.mp hmem2 with h2
          obtain ⟨hk, hv⟩ := Prod.mk.injEq .. ▸ h2
          subst hk hv
          exact List.getElem?_concat_length _ _
      · intro ke hke
        obtain ⟨k2, v2⟩ := ke
        rcases List.mem_append.mp hke with hmem2 | hmem2
        · exact hkeys (k2, v2) hmem2
        · rcases List.mem_singleton.mp hmem2 with h2
          obtain ⟨hk, hv⟩ := Prod.mk.injEq .. ▸ h2
          subst hk hv
          rfl
      · rw [sumA_append, hts]
        simp [sumA]
      · rw [sumA_append, htk]
        simp [sumA]

theorem regionMap_inv_delete (rm : regionMap) (id : Nat)
    (h : rm.Inv) : (rm.DeleteNN id).Inv := by
  obtain ⟨⟨hnd, hperm, hpos⟩, hkeys, hts, htk⟩ := h
  cases hlook : lookupA rm.m id with
  | none =>
      simp only [regionMap.DeleteNN, hlook]
      exact ⟨⟨hnd, hperm, hpos⟩, hkeys, hts, htk⟩
  | some old =>
      have hmemold : (id, old) ∈ rm.m := lookupA_mem hlook
      have hidkeys : id ∈ keysA rm.m := mem_keysA_of_lookupA hlook
      have hklen : (keysA rm.m).length = rm.m.length := by simp [keysA]
      have hlen : rm.ids.length = rm.m.length := by rw [hperm.length_eq, hklen]
      have hmpos : 0 < rm.m.length := by
        have h0 : 0 < (keysA rm.m).length :=
          List.length_pos.mpr (List.ne_nil_of_mem hidkeys)
        omega
      have hlastlt : rm.m.length - 1 < rm.ids.length := by omega
      obtain ⟨lastId, hlastId⟩ : ∃ x, rm.ids[rm.m.length - 1]? = some x :=
        ⟨_, List.getElem?_eq_getElem hlastlt⟩
      have hgetd : rm.ids.getD (rm.m.length - 1) 0 = lastId := by
        rw [List.getD_eq_getElem?_getD, hlastId]
        rfl
      have hlastmem : lastId ∈ rm.ids := List.getElem?_mem hlastId
      have hlastkeys : lastId ∈ keysA rm.m := hperm.mem_iff.mp hlastmem
      obtain ⟨last, hlooklast⟩ := lookupA_of_mem_keys hlastkeys
      have hmemlast : (lastId, last) ∈ rm.m := lookupA_mem hlooklast
      have hlastpos : rm.ids[last.pos]? = some lastId := hpos _ hmemlast
      have hlplt : last.pos < rm.ids.length := (List.getElem?_eq_some.mp hlastpos).1
      have hidsnd : rm.ids.Nodup := hperm.nodup_iff.mpr hnd
      have hlastposeq : last.pos = rm.m.length - 1 :=
        List.getElem?_inj hlplt hidsnd (hlastpos.trans hlastId.symm)
      have holdpos : rm.ids[old.pos]? = some id := hpos _ hmemold
      have holdlt : old.pos < rm.ids.length := (List.getElem?_eq_some.mp holdpos).1
      have hkeylast : last.info.Region.Id = lastId := hkeys _ hmemlast
      simp only [regionMap.DeleteNN, hlook, hgetd, hlooklast, hkeylast]
      by_cases hid : id = lastId
      · -- the deleted entry is itself the last entry of the id vector
        have hol : last = old := by
          rw [hid] at hlook
          rw [hlooklast] at hlook
          injection hlook
        subst hol
        have hopos : last.pos = rm.m.length - 1 := hlastposeq
        have hidelem : rm.ids[rm.m.length - 1] = id := by
          have h2 := (List.getElem?_eq_getElem hlastlt).symm.trans hlastId
          rw [hid]
          injection h2
        have hdrop : rm.ids.drop (rm.m.length - 1) = [id] := by
          rw [← List.getElem_cons_drop rm.ids (rm.m.length - 1) hlastlt, hidelem]
          have hsucc : rm.m.length - 1 + 1 = rm.ids.length := by omega
          rw [hsucc, List.drop_length]
        have hsplit : rm.ids = rm.ids.take (rm.m.length - 1) ++ [id] := by
          conv_lhs => rw [← List.take_append_drop (rm.m.length - 1) rm.ids]
          rw [hdrop]
        have hp1 := List.perm_append_singleton id (rm.ids.take (rm.m.length - 1))
        rw [← hsplit] at hp1
        have hperase : List.Perm ((keysA rm.m).erase id) (rm.ids.take (rm.m.length - 1)) := by
          have h2 := hperm.symm.erase id
          have h3 := hp1.erase id
          rw [List.erase_cons_head] at h3
          exact h2.trans h3
        rw [hopos, take_set_of_le _ _ _ _ (le_refl _)]
        have hm1 : insertA rm.m lastId { info := last.info, pos := rm.m.length - 1 } = rm.m := by
          have hlit : ({ info := last.info, pos := rm.m.length - 1 } : regionEntry) = last := by
            rw [← hopos]
          rw [hlit]
          exact insertA_lookup_self hlooklast
        rw [hm1]
        refine ⟨⟨?_, ?_, ?_⟩, ?_, ?_, ?_⟩
        · rw [keysA_eraseA]
          exact hnd.erase id
        · rw [keysA_eraseA]
          exact hperase.symm
        · intro ke hke
          obtain ⟨k2, v2⟩ := ke
          obtain ⟨hmem2, hne2⟩ := mem_eraseA_ne hnd hke
          have hq := hpos (k2, v2) hmem2
          have hqlt : v2.pos < rm.ids.length := (List.getElem?_eq_some.mp hq).1
          have hqne : v2.pos ≠ rm.m.length - 1 := by
            intro he
            rw [he] at hq
            rw [hq] at hlastId
            refine hne2 ?_
            rw [hid]
            injection hlastId with h2
          have hqlt2 : v2.pos < rm.m.length - 1 := by omega
          rw [List.getElem?_take]
          simp only [hqlt2, if_pos]
          exact hq
        · intro ke hke
          exact hkeys ke (mem_eraseA hke)
        · simp only [sumA_eraseA _ hlook, hts]
        · simp only [sumA_eraseA _ hlook, htk]
      · -- the deleted entry is interior: the last id is swapped into its slot
        have hpne : old.pos ≠ rm.m.length - 1 := by
          intro he
          rw [he] at holdpos
          rw [holdpos] at hlastId
          exact hid (by injection hlastId)
        have holdlt2 : old.pos < rm.m.length - 1 := by omega
        have hlookm1 : lookupA (insertA rm.m lastId { last with pos := old.pos }) id =
            some old := by
          rw [lookupA_insertA]
          rw [if_neg hid]
          exact hlook
        have hkm1 : keysA (insertA rm.m lastId { last with pos := old.pos }) =
            keysA rm.m := keysA_insertA_of_mem_keys _ hlastkeys
        have hndm1 : (keysA (insertA rm.m lastId { last with pos := old.pos })).Nodup := by
          rw [hkm1]
          exact hnd
        have hidelem : rm.ids[old.pos] = id := by
          have h2 := (List.getElem?_eq_getElem holdlt).symm.trans holdpos
          injection h2
        have hdrop : rm.ids.drop old.pos = id :: rm.ids.drop (old.pos + 1) := by
          rw [← List.getElem_cons_drop rm.ids old.pos holdlt, hidelem]
        have hdecompids : rm.ids =
            rm.ids.take old.pos ++ id :: rm.ids.drop (old.pos + 1) := by
          conv_lhs => rw [← List.take_append_drop old.pos rm.ids]
          rw [hdrop]
        have hsetdecomp : rm.ids.set old.pos lastId =
            rm.ids.take old.pos ++ lastId :: rm.ids.drop (old.pos + 1) :=
          List.set_eq_take_cons_drop lastId holdlt
        have hsetlen : (rm.ids.set old.pos lastId).length = rm.ids.length :=
          List.length_set rm.ids old.pos lastId
        have hsetlast : (rm.ids.set old.pos lastId)[rm.m.length - 1]? = some lastId := by
          rw [List.getElem?_set_ne hpne]
          exact hlastId
        have hlt2 : rm.m.length - 1 < (rm.ids.set old.pos lastId).length := by
          rw [hsetlen]
          exact hlastlt
        have hl2 : (rm.ids.set old.pos lastId).drop (rm.m.length - 1) = [lastId] := by
          rw [← List.getElem_cons_drop (rm.ids.set old.pos lastId) (rm.m.length - 1) hlt2]
          have hv : (rm.ids.set old.pos lastId)[rm.m.length - 1] = lastId := by
            have h2 := (List.getElem?_eq_getElem hlt2).symm.trans hsetlast
            injection h2
          rw [hv]
          have hsucc : rm.m.length - 1 + 1 = (rm.ids.set old.pos lastId).length := by
            rw [hsetlen]
            omega
          rw [hsucc, List.drop_length]
        have hsplit2 : rm.ids.set old.pos lastId =
            (rm.ids.set old.pos lastId).take (rm.m.length - 1) ++ [lastId] := by
          conv_lhs => rw [← List.take_append_drop (rm.m.length - 1) (rm.ids.set old.pos lastId)]
          rw [hl2]
        have hpa := List.perm_append_singleton lastId
          ((rm.ids.set old.pos lastId).take (rm.m.length - 1))
        rw [← hsplit2] at hpa
        have hpb : List.Perm (rm.ids.set old.pos lastId)
            (lastId :: (rm.ids.take old.pos ++ rm.ids.drop (old.pos + 1))) := by
          rw [hsetdecomp]
          exact List.perm_middle
        have hpd : List.Perm ((rm.ids.set old.pos lastId).take (rm.m.length - 1))
            (rm.ids.take old.pos ++ rm.ids.drop (old.pos + 1)) :=
          (hpa.symm.trans hpb).cons_inv
        have hpe : List.Perm (rm.ids.take old.pos ++ id :: rm.ids.drop (old.pos + 1))
            (id :: (rm.ids.take old.pos ++ rm.ids.drop (old.pos + 1))) := List.perm_middle
        rw [← hdecompids] at hpe
        have hpf : List.Perm (rm.ids.erase id)
            (rm.ids.take old.pos ++ rm.ids.drop (old.pos + 1)) := by
          have h3 := hpe.erase id
          rw [List.erase_cons_head] at h3
          exact h3
        have hpg : List.Perm ((keysA rm.m).erase id)
            ((rm.ids.set old.pos lastId).take (rm.m.length - 1)) :=
          ((hperm.symm.erase id).trans hpf).trans hpd.symm
        refine ⟨⟨?_, ?_, ?_⟩, ?_, ?_, ?_⟩
        · rw [keysA_eraseA, hkm1]
          exact hnd.erase id
        · rw [keysA_eraseA, hkm1]
          exact hpg.symm
        · intro ke hke
          obtain ⟨k2, v2⟩ := ke
          obtain ⟨hmem1, hne1⟩ := mem_eraseA_ne hndm1 hke
          rcases (mem_insertA_iff hnd k2 v2).mp hmem1 with ⟨hk2, hv2⟩ | ⟨hmem2, hne2⟩
          · subst hv2
            rw [hk2]
            dsimp only
            rw [List.getElem?_take]
            simp only [holdlt2, if_pos]
            exact List.getElem?_set_eq_of_lt lastId holdlt
          · have hq := hpos (k2, v2) hmem2
            have hqlt : v2.pos < rm.ids.length := (List.getElem?_eq_some.mp hq).1
            have hqneo : v2.pos ≠ old.pos := by
              intro he
              rw [he] at hq
              rw [holdpos] at hq
              refine hne1 ?_
              injection hq with h2
              exact h2.symm
            have hqnel : v2.pos ≠ rm.m.length - 1 := by
              intro he
              rw [he] at hq
              rw [hlastId] at hq
              refine hne2 ?_
              injection hq with h2
              exact h2.symm
            have hqlt2 : v2.pos < rm.m.length - 1 := by omega
            rw [List.getElem?_take]
            simp only [hqlt2, if_pos]
            rw [List.getElem?_set_ne (fun he => hqneo he.symm)]
            exact hq
        · intro ke hke
          obtain ⟨k2, v2⟩ := ke
          have hmem1 := mem_eraseA hke
          rcases (mem_insertA_iff hnd k2 v2).mp hmem1 with ⟨hk2, hv2⟩ | ⟨hmem2, _⟩
          · subst hk2 hv2
            exact hkeylast
          · exact hkeys (k2, v2) hmem2
        · simp only [sumA_eraseA _ hlookm1, sumA_insertA _ _ hlooklast, hts]
          omega
        · simp only [sumA_eraseA _ hlookm1, sumA_insertA _ _ hlooklast, htk]
          omega

theorem newRegionMap_inv : newRegionMap.Inv := by
  refine ⟨⟨?_, ?_, ?_⟩, ?_, ?_, ?_⟩ <;>
    simp [newRegionMap, keysA, sumA, regionMap.WFkeys]

theorem regionMap_inv_applyOps (rm : regionMap) (ops : List RMOp)
    (h : rm.Inv) : (applyOps rm ops).Inv := by
  induction ops generalizing rm with
  | nil => exact h
  | cons op rest ih =>
      cases op with
      | putOp region => exact ih _ (regionMap_inv_put rm region h)
      | delOp id => exact ih _ (regionMap_inv_delete rm id h)

/-- The `regionMap.WFids` invariant lifted to a possibly-nil receiver. -/
def WFidsOpt : Option regionMap → Prop
  | none => True
  | some rm => rm.WFids

theorem regionMap_random_none {rm : Option regionMap} (k : Nat)
    (h : regionMap.Len rm = 0) : regionMap.RandomRegion rm k = none := by
  simp [regionMap.RandomRegion, h]

theorem regionMap_random_some (rm : regionMap) (hwf : rm.WFids)
    (hlen : regionMap.Len (some rm) ≠ 0) (k : Nat) :
    ∃ reg, regionMap.RandomRegion (some rm) k = some reg := by
  obtain ⟨hnd, hperm, _⟩ := hwf
  have hklen : (keysA rm.m).length = rm.m.length := by simp [keysA]
  have hilen : rm.ids.length = rm.m.length := by rw [hperm.length_eq, hklen]
  have hmlen : rm.m.length ≠ 0 := by simpa [regionMap.Len] using hlen
  have hidx : k % regionMap.Len (some rm) < rm.ids.length := by
    simp only [regionMap.Len]
    rw [hilen]
    exact Nat.mod_lt _ (Nat.pos_of_ne_zero hmlen)
  obtain ⟨x, hx⟩ : ∃ x, rm.ids[k % regionMap.Len (some rm)]? = some x :=
    ⟨_, List.getElem?_eq_getElem hidx⟩
  have hgd : rm.ids.getD (k % regionMap.Len (some rm)) 0 = x := by
    rw [List.getD_eq_getElem?_getD, hx]
    rfl
  have hxk : x ∈ keysA rm.m := hperm.mem_iff.mp (List.getElem?_mem hx)
  obtain ⟨e, he⟩ := lookupA_of_mem_keys hxk
  refine ⟨e.info, ?_⟩
  simp only [regionMap.RandomRegion, if_neg hlen, hgd, regionMap.Get, regionMap.GetNN, he]
  rfl

theorem randRegionLoop_spec (rm : Option regionMap) (picks : Nat → Nat)
    (opts : List (RegionInfo → Bool)) (hwf : WFidsOpt rm) (fuel i : Nat) :
    randRegionLoop rm picks opts i fuel =
      (List.range' i fuel).findSome? (fun j =>
        Option.filter (fun reg => opts.all (fun opt => opt reg))
          (regionMap.RandomRegion rm (picks j))) := by
  by_cases hlen : regionMap.Len rm = 0
  · have hall : ∀ j, Option.filter (fun reg => opts.all (fun opt => opt reg))
        (regionMap.RandomRegion rm (picks j)) = none := by
      intro j
      rw [regionMap_random_none _ hlen]
      rfl
    have hfs : ∀ l : List Nat, l.findSome? (fun j =>
        Option.filter (fun reg => opts.all (fun opt => opt reg))
          (regionMap.RandomRegion rm (picks j))) = none := by
      intro l
      induction l with
      | nil => rfl
      | cons x xs ih => rw [List.findSome?_cons, hall x, ih]
    rw [hfs]
    cases fuel with
    | zero => rfl
    | succ fuel2 =>
        rw [randRegionLoop, regionMap_random_none _ hlen]
  · induction fuel generalizing i with
    | zero => rfl
    | succ fuel2 ih =>
        match rm, hwf with
        | some rmv, hwf =>
            obtain ⟨reg, hreg⟩ := regionMap_random_some rmv hwf hlen (picks i)
            rw [randRegionLoop, hreg, List.range'_succ i fuel2 1, List.findSome?_cons, hreg]
            cases hsel : opts.all (fun opt => opt reg) with
            | true =>
                have hfil : Option.filter (fun reg => opts.all (fun opt => opt reg))
                    (some reg) = some reg := by
                  simp [Option.filter, hsel]
                rw [hfil]
                dsimp only
                rw [if_pos hsel]
            | false =>
                have hfil : Option.filter (fun reg => opts.all (fun opt => opt reg))
                    (some reg) = none := by
                  simp [Option.filter, hsel]
                rw [hfil]
                dsimp only
                rw [if_neg (by simp [hsel])]
                exact ih (i + 1)

theorem lookupA_eraseA_ne {β : Type} {m : List (Nat × β)} {k k2 : Nat}
    (hne : k2 ≠ k) : lookupA (eraseA m k) k2 = lookupA m k2 := by
  induction m with
  | nil => rfl
  | cons p rest ih =>
      obtain ⟨k0, v0⟩ := p
      simp only [eraseA, lookupA]
      split
      · rename_i hk0
        subst hk0
        rw [if_neg (fun he => hne he.symm)]
      · rw [lookupA]
        split
        · rfl
        · exact ih

instance (rm : regionMap) : Decidable rm.WFids := by
  unfold regionMap.WFids
  infer_instance

instance (rm : regionMap) : Decidable rm.WFkeys := by
  unfold regionMap.WFkeys
  infer_instance

instance (rm : regionMap) : Decidable rm.WFtotals := by
  unfold regionMap.WFtotals
  infer_instance

instance (rm : regionMap) : Decidable rm.Inv := by
  unfold regionMap.Inv
  infer_instance

instance : (rm : Option regionMap) → Decidable (WFidsOpt rm)
  | none => isTrue trivial
  | some rm => inferInstanceAs (Decidable rm.WFids)

instance (s : RegionsInfoH) (h : Heap) : Decidable (WFH s h) := by
  unfold WFH
  infer_instance

/-- Sample data used by the concrete witnesses and counterexamples below. -/
def peerV1 : Peer := { Id := 1, StoreId := 1, IsLearner := false }

def peerV2 : Peer := { Id := 2, StoreId := 2, IsLearner := false }

def peerL3 : Peer := { Id := 3, StoreId := 7, IsLearner := true }

def metaA : RegionMeta :=
  { Id := 1, StartKey := [10], EndKey := [20], ConfVer := 1, Version := 1,
    Peers := [peerV1, peerV2, peerL3] }

def regionA : RegionInfo :=
  { NewRegionInfo metaA (some peerV1) with
    ApproximateSize := 5, ApproximateKeys := 11, PendingPeers := [peerV2] }

def metaB : RegionMeta :=
  { Id := 2, StartKey := [20], EndKey := [30], ConfVer := 1, Version := 1,
    Peers := [peerV1] }

def regionB : RegionInfo :=
  { NewRegionInfo metaB (some peerV1) with ApproximateSize := 3, ApproximateKeys := 4 }

def regionA2 : RegionInfo := { regionA with ApproximateSize := 9, ApproximateKeys := 2 }

def metaNoLeader : RegionMeta :=
  { Id := 4, StartKey := [40], EndKey := [50], ConfVer := 1, Version := 1,
    Peers := [peerV1, peerL3] }

/-- A region with learners and pending peers but no leader. -/
def regionNoLeader : RegionInfo :=
  { NewRegionInfo metaNoLeader none with PendingPeers := [peerV1] }

/-- A small populated `regionMap` reached by two `Put` operations. -/
def rmW : regionMap := applyOps newRegionMap [RMOp.putOp regionA, RMOp.putOp regionB]

/-- C3 counterexample: the claim says no `regionMap` operation faults on a
nil receiver, but `regionMap.Put` has no nil-receiver guard: its first
statement reads `rm.m` through the nil pointer, a Go runtime panic
(`region.go:384-398`), modelled as `Except.error`. -/
theorem c3_nil_put_counterexample : regionMap.Put none regionA = Except.error () := rfl

/-- C3 (amended): `Len`, `Get`, `Delete`, `RandomRegion` and `TotalSize`
return their zero value or are a no-op on a nil receiver; `Put` alone is not
nil-tolerant and faults, and is only ever invoked on allocated maps. -/
theorem c3_nil_receiver_amended :
    (∀ id k : Nat,
      regionMap.Len none = 0 ∧ regionMap.Get none id = none ∧
      regionMap.Delete none id = none ∧ regionMap.RandomRegion none k = none ∧
      regionMap.TotalSize none = 0) ∧
    ∀ (rm : regionMap) (region : RegionInfo),
      regionMap.Put (some rm) region = Except.ok (rm.PutNN region) := by
  refine ⟨fun id k => ⟨rfl, rfl, rfl, ?_, ?_⟩, fun rm region => rfl⟩
  · simp [regionMap.RandomRegion, regionMap.Len]
  · simp [regionMap.TotalSize, regionMap.Len]

/-- C4: after any sequence of `Put`/`Delete` operations starting from
`newRegionMap`, the id vector is a permutation of the key set and every
entry's `pos` indexes its own id; `Put` on a present id never touches the id
vector; `Delete` of a present id swap-removes: the vector shrinks by one and
the last id's entry receives the vacated position. -/
theorem c4_id_vector_invariant :
    (∀ ops : List RMOp, (applyOps newRegionMap ops).WFids) ∧
    (∀ (rm : regionMap) (region : RegionInfo) (old : regionEntry),
      lookupA rm.m region.Region.Id = some old → (rm.PutNN region).ids = rm.ids) ∧
    (∀ (rm : regionMap) (id : Nat) (old : regionEntry), rm.Inv →
      lookupA rm.m id = some old →
      (rm.DeleteNN id).ids.length + 1 = rm.ids.length ∧
      ∀ last : regionEntry,
        lookupA rm.m (rm.ids.getD (rm.m.length - 1) 0) = some last →
        rm.ids.getD (rm.m.length - 1) 0 ≠ id →
        lookupA (rm.DeleteNN id).m (rm.ids.getD (rm.m.length - 1) 0) =
          some { last with pos := old.pos }) := by
  refine ⟨fun ops => (regionMap_inv_applyOps _ _ newRegionMap_inv).1, ?_, ?_⟩
  · intro rm region old hlook
    simp [regionMap.PutNN, hlook]
  · intro rm id old hinv hlook
    obtain ⟨⟨hnd, hperm, hpos⟩, _, _⟩ := hinv
    have hmemold : (id, old) ∈ rm.m := lookupA_mem hlook
    have hidkeys : id ∈ keysA rm.m := mem_keysA_of_lookupA hlook
    have hklen : (keysA rm.m).length = rm.m.length := by simp [keysA]
    have hlen : rm.ids.length = rm.m.length := by rw [hperm.length_eq, hklen]
    have hmpos : 0 < rm.m.length := by
      have h0 : 0 < (keysA rm.m).length :=
        List.length_pos.mpr (List.ne_nil_of_mem hidkeys)
      omega
    constructor
    · obtain ⟨last, hlast⟩ :
          ∃ e, lookupA rm.m (rm.ids.getD (rm.m.length - 1) 0) = some e := by
        have hlastlt : rm.m.length - 1 < rm.ids.length := by omega
        obtain ⟨x, hx⟩ : ∃ x, rm.ids[rm.m.length - 1]? = some x :=
          ⟨_, List.getElem?_eq_getElem hlastlt⟩
        have hgd : rm.ids.getD (rm.m.length - 1) 0 = x := by
          rw [List.getD_eq_getElem?_getD, hx]
          rfl
        rw [hgd]
        exact lookupA_of_mem_keys (hperm.mem_iff.mp (List.getElem?_mem hx))
      simp only [regionMap.DeleteNN, hlook, hlast]
      simp only [List.length_take, List.length_set]
      omega
    · intro last hlast hne
      simp only [regionMap.DeleteNN, hlook, hlast]
      rw [lookupA_eraseA_ne hne, lookupA_insertA]
      rw [if_pos rfl]

/-- C4 witness: a concrete two-element map satisfying the invariant, on which
deleting id 1 moves id 2's entry into position 0. -/
theorem c4_id_vector_invariant_witness :
    rmW.Inv ∧
    lookupA (rmW.DeleteNN 1).m (rmW.ids.getD (rmW.m.length - 1) 0) =
      some { info := regionB, pos := 0 } :=
  ⟨by decide,
    (c4_id_vector_invariant.2.2 rmW 1 ⟨regionA, 0⟩ (by decide) (by decide)).2
      ⟨regionB, 1⟩ (by decide) (by decide)⟩

/-- C5: after any sequence of `Put`/`Delete` operations starting from
`newRegionMap`, `totalSize` equals the sum of `ApproximateSize` over the
resident regions and `totalKeys` the sum of `ApproximateKeys`; `Put` on a
present id adjusts both totals by the delta between new and old snapshot. -/
theorem c5_running_totals :
    (∀ ops : List RMOp,
      (applyOps newRegionMap ops).totalSize =
        sumA (fun e => e.info.ApproximateSize) (applyOps newRegionMap ops).m ∧
      (applyOps newRegionMap ops).totalKeys =
        sumA (fun e => e.info.ApproximateKeys) (applyOps newRegionMap ops).m) ∧
    ∀ (rm : regionMap) (region : RegionInfo) (old : regionEntry),
      lookupA rm.m region.Region.Id = some old →
      (rm.PutNN region).totalSize =
        rm.totalSize + region.ApproximateSize - old.info.ApproximateSize ∧
      (rm.PutNN region).totalKeys =
        rm.totalKeys + region.ApproximateKeys - old.info.ApproximateKeys := by
  refine ⟨fun ops => (regionMap_inv_applyOps _ _ newRegionMap_inv).2.2, ?_⟩
  intro rm region old hlook
  simp [regionMap.PutNN, hlook]

/-- C5 witness: overwriting id 1 changes the totals by the size/key delta. -/
theorem c5_running_totals_witness :
    lookupA rmW.m regionA2.Region.Id = some ⟨regionA, 0⟩ ∧
    (rmW.PutNN regionA2).totalSize =
      rmW.totalSize + regionA2.ApproximateSize - regionA.ApproximateSize :=
  ⟨by decide, (c5_running_totals.2 rmW regionA2 ⟨regionA, 0⟩ (by decide)).1⟩

/-- C6: `randRegion` with no predicates returns absent iff the map is empty;
with predicates it draws at most `randomRegionMaxRetry` (= 10) samples and
returns the first one satisfying every predicate (absent when the map is
empty or all ten samples were rejected); `RandRegion`,
`RandLeaderRegion` and `RandFollowerRegion` all delegate to it, the per-store
variants on the possibly-absent per-store map. -/
theorem c6_rand_region :
    (∀ (rm : Option regionMap) (picks : Nat → Nat) (opts : List (RegionInfo → Bool)),
      WFidsOpt rm →
      (randRegion rm picks opts =
        (List.range' 0 randomRegionMaxRetry).findSome? (fun j =>
          Option.filter (fun reg => opts.all (fun opt => opt reg))
            (regionMap.RandomRegion rm (picks j))) ∧
      (randRegion rm picks [] = none ↔ regionMap.Len rm = 0))) ∧
    ∀ (r : RegionsInfo) (picks : Nat → Nat) (opts : List (RegionInfo → Bool)) (storeID : Nat),
      r.RandRegion picks opts = randRegion (some r.regions) picks opts ∧
      r.RandLeaderRegion storeID picks opts = randRegion (lookupA r.leaders storeID) picks opts ∧
      r.RandFollowerRegion storeID picks opts = randRegion (lookupA r.followers storeID) picks opts := by
  refine ⟨fun rm picks opts hwf => ⟨?_, ?_, ?_⟩, fun r picks opts storeID => ⟨rfl, rfl, rfl⟩⟩
  · exact randRegionLoop_spec rm picks opts hwf randomRegionMaxRetry 0
  · intro hnone
    by_contra hlen
    match rm, hwf with
    | some rmv, hwf =>
        obtain ⟨reg, hreg⟩ := regionMap_random_some rmv hwf hlen (picks 0)
        have heq : randRegion (some rmv) picks [] =
            (List.range' 0 randomRegionMaxRetry).findSome? (fun j =>
              Option.filter (fun reg => ([] : List (RegionInfo → Bool)).all (fun opt => opt reg))
                (regionMap.RandomRegion (some rmv) (picks j))) :=
          randRegionLoop_spec (some rmv) picks [] hwf randomRegionMaxRetry 0
        rw [heq] at hnone
        have h0 := List.findSome?_eq_none_iff.mp hnone 0 (by decide)
        rw [hreg] at h0
        simp [Option.filter] at h0
  · intro hlen
    have heq : randRegion rm picks [] =
        (List.range' 0 randomRegionMaxRetry).findSome? (fun j =>
          Option.filter (fun reg => ([] : List (RegionInfo → Bool)).all (fun opt => opt reg))
            (regionMap.RandomRegion rm (picks j))) :=
      randRegionLoop_spec rm picks [] hwf randomRegionMaxRetry 0
    rw [heq]
    refine List.findSome?_eq_none_iff.mpr (fun j _ => ?_)
    rw [regionMap_random_none _ hlen]
    rfl

/-- C6 witness: on the concrete two-region map, the no-predicate sampler is
non-absent and the equivalence with emptiness holds. -/
theorem c6_rand_region_witness :
    WFidsOpt (some rmW) ∧
    ((randRegion (some rmW) (fun _ => 0) [] = none) ↔ regionMap.Len (some rmW) = 0) :=
  ⟨by decide, ((c6_rand_region.1 (some rmW) (fun _ => 0) []) (by decide)).2⟩

theorem putNN_get_self (rm : regionMap) (region : RegionInfo) :
    (rm.PutNN region).GetNN region.Region.Id = some region := by
  cases hlook : lookupA rm.m region.Region.Id with
  | some old =>
      simp only [regionMap.PutNN, hlook, regionMap.GetNN, lookupA_insertA, if_pos rfl]
      rfl
  | none =>
      simp only [regionMap.PutNN, hlook, regionMap.GetNN, lookupA_insertA, if_pos rfl]
      rfl

theorem bucketPut_get_self (b : List (Nat × regionMap)) (storeID : Nat)
    (region : RegionInfo) :
    regionMap.Get (lookupA (bucketPut b storeID region) storeID)
      region.Region.Id = some region := by
  cases hlook : lookupA b storeID with
  | none =>
      simp only [bucketPut, hlook, lookupA_insertA, if_pos rfl, regionMap.Get]
      exact putNN_get_self _ _
  | some st =>
      simp only [bucketPut, hlook, lookupA_insertA, if_pos rfl, regionMap.Get]
      exact putNN_get_self _ _

theorem bucketPut_lookup_other (b : List (Nat × regionMap)) {storeID sid2 : Nat}
    (region : RegionInfo) (hne : sid2 ≠ storeID) :
    lookupA (bucketPut b storeID region) sid2 = lookupA b sid2 := by
  cases hlook : lookupA b storeID with
  | none => simp only [bucketPut, hlook, lookupA_insertA, if_neg hne]
  | some st => simp only [bucketPut, hlook, lookupA_insertA, if_neg hne]

theorem bucketPutFold_preserve (region : RegionInfo) (peers : List Peer) :
    ∀ (b : List (Nat × regionMap)) (sid2 : Nat),
      regionMap.Get (lookupA b sid2) region.Region.Id = some region →
      regionMap.Get
        (lookupA (peers.foldl (fun acc q => bucketPut acc q.StoreId region) b) sid2)
        region.Region.Id = some region := by
  induction peers with
  | nil => exact fun b sid2 h => h
  | cons q rest ih =>
      intro b sid2 h
      simp only [List.foldl_cons]
      by_cases hq : sid2 = q.StoreId
      · subst hq
        exact ih _ _ (bucketPut_get_self b q.StoreId region)
      · refine ih _ _ ?_
        rw [bucketPut_lookup_other b region hq]
        exact h

theorem bucketPutFold_mem (region : RegionInfo) (peers : List Peer) :
    ∀ (b : List (Nat × regionMap)), ∀ p ∈ peers,
      regionMap.Get
        (lookupA (peers.foldl (fun acc q => bucketPut acc q.StoreId region) b) p.StoreId)
        region.Region.Id = some region := by
  induction peers with
  | nil => intro b p hp; simp at hp
  | cons q rest ih =>
      intro b p hp
      simp only [List.foldl_cons]
      rcases List.mem_cons.mp hp with hp | hp
      · subst hp
        exact bucketPutFold_preserve region rest _ _ (bucketPut_get_self b p.StoreId region)
      · exact ih _ p hp

theorem foldVoters_fields (region : RegionInfo) (leader : Peer) (peers : List Peer) :
    ∀ acc : RegionsInfo,
      (peers.foldl (fun acc peer =>
        if peer.Id = leader.Id then
          { acc with leaders := bucketPut acc.leaders peer.StoreId region }
        else
          { acc with followers := bucketPut acc.followers peer.StoreId region }) acc).learners =
        acc.learners ∧
      (peers.foldl (fun acc peer =>
        if peer.Id = leader.Id then
          { acc with leaders := bucketPut acc.leaders peer.StoreId region }
        else
          { acc with followers := bucketPut acc.followers peer.StoreId region }) acc).pendingPeers =
        acc.pendingPeers := by
  induction peers with
  | nil => exact fun acc => ⟨rfl, rfl⟩
  | cons q rest ih =>
      intro acc
      simp only [List.foldl_cons]
      by_cases hq : q.Id = leader.Id
      · rw [if_pos hq]
        exact ih _
      · rw [if_neg hq]
        exact ih _

theorem foldLearners_fields (region : RegionInfo) (peers : List Peer) :
    ∀ acc : RegionsInfo,
      (peers.foldl (fun acc peer =>
        { acc with learners := bucketPut acc.learners peer.StoreId region }) acc).learners =
        peers.foldl (fun b peer => bucketPut b peer.StoreId region) acc.learners ∧
      (peers.foldl (fun acc peer =>
        { acc with learners := bucketPut acc.learners peer.StoreId region }) acc).pendingPeers =
        acc.pendingPeers := by
  induction peers with
  | nil => exact fun acc => ⟨rfl, rfl⟩
  | cons q rest ih =>
      intro acc
      simp only [List.foldl_cons]
      exact ih _

theorem foldPending_fields (region : RegionInfo) (peers : List Peer) :
    ∀ acc : RegionsInfo,
      (peers.foldl (fun acc peer =>
        { acc with pendingPeers := bucketPut acc.pendingPeers peer.StoreId region }) acc).pendingPeers =
        peers.foldl (fun b peer => bucketPut b peer.StoreId region) acc.pendingPeers ∧
      (peers.foldl (fun acc peer =>
        { acc with pendingPeers := bucketPut acc.pendingPeers peer.StoreId region }) acc).learners =
        acc.learners := by
  induction peers with
  | nil => exact fun acc => ⟨rfl, rfl⟩
  | cons q rest ih =>
      intro acc
      simp only [List.foldl_cons]
      exact ih _

/-- C1 counterexample: `AddRegion` on a region whose leader is nil returns
right after the tree/regions update (`region.go:489-491`), so its learner
(store 7) and pending peer (store 1) are placed in no per-store bucket,
refuting "regardless of whether the region's leader is set". -/
theorem c1_buckets_counterexample :
    regionNoLeader.Leader = none ∧
    regionNoLeader.Learners = [peerL3] ∧ peerL3.StoreId = 7 ∧
    regionNoLeader.PendingPeers = [peerV1] ∧ peerV1.StoreId = 1 ∧
    (RegionsInfo.AddRegion NewRegionsInfo regionNoLeader).toOption.map
      (fun pr => (lookupA pr.1.learners 7, lookupA pr.1.pendingPeers 1)) =
      some (none, none) := by decide

/-- C1 (amended): whenever `AddRegion` succeeds on a region whose leader is
set, every learner of the region is present in `learners[storeId]` of its
store and every pending peer in `pendingPeers[storeId]`; when the leader is
nil the function returns before touching any per-store bucket. -/
theorem c1_buckets_amended :
    ∀ (r : RegionsInfo) (region : RegionInfo) (r2 : RegionsInfo) (ov : List RegionMeta),
      region.Leader.isSome = true →
      RegionsInfo.AddRegion r region = Except.ok (r2, ov) →
      (∀ p ∈ region.Learners,
        regionMap.Get (lookupA r2.learners p.StoreId) region.Region.Id = some region) ∧
      (∀ p ∈ region.PendingPeers,
        regionMap.Get (lookupA r2.pendingPeers p.StoreId) region.Region.Id = some region) := by
  intro r region r2 ov hsome h
  cases hld : region.Leader with
  | none => rw [hld] at hsome; simp at hsome
  | some leader =>
      simp only [RegionsInfo.AddRegion, hld] at h
      cases hfold : (treeUpdate r.tree region.Region).2.foldlM (fun acc item =>
          match RegionsInfo.GetRegion acc item.Id with
          | none => Except.error ()
          | some reg => Except.ok (acc.RemoveRegion reg))
          { r with tree := (treeUpdate r.tree region.Region).1 } with
      | error e =>
          rw [hfold] at h
          exact absurd h (by simp)
      | ok rmid =>
          rw [hfold] at h
          simp only [Except.ok.injEq, Prod.mk.injEq] at h
          obtain ⟨hr2, hov⟩ := h
          subst hr2
          constructor
          · intro p hp
            rw [(foldPending_fields region region.PendingPeers _).2,
              (foldLearners_fields region region.Learners _).1]
            exact bucketPutFold_mem region region.Learners _ p hp
          · intro p hp
            rw [(foldPending_fields region region.PendingPeers _).1]
            exact bucketPutFold_mem region region.PendingPeers _ p hp

deriving instance DecidableEq for Except

/-- The state reached by adding the leader-bearing sample region to a fresh
index (used by the C1 witness). -/
def c1Added : RegionsInfo :=
  match RegionsInfo.AddRegion NewRegionsInfo regionA with
  | Except.ok pr => pr.1
  | Except.error _ => NewRegionsInfo

/-- C1 witness: the sample region has a leader, one learner on store 7 and
one pending peer on store 2, and after `AddRegion` both buckets hold it. -/
theorem c1_buckets_amended_witness :
    regionA.Leader.isSome = true ∧
    ((∀ p ∈ regionA.Learners,
      regionMap.Get (lookupA c1Added.learners p.StoreId) regionA.Region.Id = some regionA) ∧
     (∀ p ∈ regionA.PendingPeers,
      regionMap.Get (lookupA c1Added.pendingPeers p.StoreId) regionA.Region.Id = some regionA)) :=
  ⟨by decide,
    c1_buckets_amended NewRegionsInfo regionA c1Added [] (by decide) (by decide)⟩

theorem pickMaxStart_mem {l : List RegionMeta} {x : RegionMeta}
    (h : pickMaxStart l = some x) : x ∈ l := by
  induction l with
  | nil => simp [pickMaxStart] at h
  | cons a rest ih =>
      cases hr : pickMaxStart rest with
      | none =>
          simp only [pickMaxStart, hr] at h
          injection h with h
          exact h ▸ List.mem_cons_self _ _
      | some y =>
          simp only [pickMaxStart, hr] at h
          split at h
          · injection h with h
            subst h
            exact List.mem_cons_of_mem _ (ih hr)
          · injection h with h
            exact h ▸ List.mem_cons_self _ _

theorem pickMinStart_mem {l : List RegionMeta} {x : RegionMeta}
    (h : pickMinStart l = some x) : x ∈ l := by
  induction l with
  | nil => simp [pickMinStart] at h
  | cons a rest ih =>
      cases hr : pickMinStart rest with
      | none =>
          simp only [pickMinStart, hr] at h
          injection h with h
          exact h ▸ List.mem_cons_self _ _
      | some y =>
          simp only [pickMinStart, hr] at h
          split at h
          · injection h with h
            subst h
            exact List.mem_cons_of_mem _ (ih hr)
          · injection h with h
            exact h ▸ List.mem_cons_self _ _

theorem treeGetAdjacent_fst_mem {t : List RegionMeta} {m mp : RegionMeta}
    (h : (treeGetAdjacent t m).1 = some mp) : mp ∈ t := by
  have h2 : pickMaxStart (t.filter (fun x => keyLtB x.StartKey m.StartKey)) = some mp := h
  exact (List.mem_filter.mp (pickMaxStart_mem h2)).1

theorem treeGetAdjacent_snd_mem {t : List RegionMeta} {m mn : RegionMeta}
    (h : (treeGetAdjacent t m).2 = some mn) : mn ∈ t := by
  have h2 : pickMinStart (t.filter (fun x => keyLtB m.StartKey x.StartKey)) = some mn := h
  exact (List.mem_filter.mp (pickMinStart_mem h2)).1

theorem clone_region (r : RegionInfo) : r.Clone.Region = r.Region := rfl

/-- Tree/regions-map agreement: every meta resident in the tree is stored in
the global regions map under its id, with the same meta. -/
def WFtreeRegions (r : RegionsInfo) : Prop :=
  ∀ m ∈ r.tree, (lookupA r.regions.m m.Id).map (fun e => e.info.Region) = some m

instance (r : RegionsInfo) : Decidable (WFtreeRegions r) := by
  unfold WFtreeRegions
  infer_instance

/-- C7: `GetAdjacentRegions` returns the prev neighbour only if its end key
equals the probe region's start key byte-exactly, and the next neighbour only
if the probe's end key equals its start key: neighbours across a key gap are
suppressed (`region.go:668-679`). -/
theorem c7_adjacent_no_gap :
    ∀ (r : RegionsInfo) (region : RegionInfo), WFtreeRegions r →
      (∀ p, (r.GetAdjacentRegions region).1 = some p →
        p.Region.EndKey = region.Region.StartKey) ∧
      (∀ n, (r.GetAdjacentRegions region).2 = some n →
        region.Region.EndKey = n.Region.StartKey) := by
  intro r region hwf
  constructor
  · intro p hp
    simp only [RegionsInfo.GetAdjacentRegions] at hp
    cases hmp : (treeGetAdjacent r.tree region.Region).1 with
    | none => rw [hmp] at hp; simp at hp
    | some mp =>
        rw [hmp] at hp
        dsimp only at hp
        by_cases hc : mp.EndKey = region.Region.StartKey
        · rw [if_pos hc] at hp
          have hmem : mp ∈ r.tree := treeGetAdjacent_fst_mem hmp
          have hmap := hwf mp hmem
          cases hlk : lookupA r.regions.m mp.Id with
          | none => rw [hlk] at hmap; simp at hmap
          | some e =>
              rw [hlk] at hmap
              simp only [Option.map_some', Option.some.injEq] at hmap
              simp only [RegionsInfo.GetRegion, regionMap.GetNN, hlk, Option.map_some',
                Option.some.injEq] at hp
              rw [← hp, clone_region, hmap]
              exact hc
        · rw [if_neg hc] at hp
          simp at hp
  · intro n hn
    simp only [RegionsInfo.GetAdjacentRegions] at hn
    cases hmn : (treeGetAdjacent r.tree region.Region).2 with
    | none => rw [hmn] at hn; simp at hn
    | some mn =>
        rw [hmn] at hn
        dsimp only at hn
        by_cases hc : region.Region.EndKey = mn.StartKey
        · rw [if_pos hc] at hn
          have hmem : mn ∈ r.tree := treeGetAdjacent_snd_mem hmn
          have hmap := hwf mn hmem
          cases hlk : lookupA r.regions.m mn.Id with
          | none => rw [hlk] at hmap; simp at hmap
          | some e =>
              rw [hlk] at hmap
              simp only [Option.map_some', Option.some.injEq] at hmap
              simp only [RegionsInfo.GetRegion, regionMap.GetNN, hlk, Option.map_some',
                Option.some.injEq] at hn
              rw [← hn, clone_region, hmap]
              exact hc
        · rw [if_neg hc] at hn
          simp at hn

/-- A concrete index holding the contiguous sample regions `[10,20)` and
`[20,30)` (used by the C7 witness). -/
def c7State : RegionsInfo :=
  { tree := [metaA, metaB]
    regions := { m := [(1, ⟨regionA, 0⟩), (2, ⟨regionB, 1⟩)], ids := [1, 2],
                 totalSize := 8, totalKeys := 15 }
    leaders := [], followers := [], learners := [], pendingPeers := [] }

/-- C7 witness: on the concrete contiguous state the guard property holds for
the probe region `[20,30)`. -/
theorem c7_adjacent_no_gap_witness :
    WFtreeRegions c7State ∧
    ∀ p, (c7State.GetAdjacentRegions regionB).1 = some p →
      p.Region.EndKey = regionB.Region.StartKey :=
  ⟨by decide, (c7_adjacent_no_gap c7State regionB (by decide)).1⟩

/-- C8: the distinct-score filter never rejects a source, and rejects a
target `t` exactly when `DistinctScore(labels, peerStores minus the source,
t)` is strictly below the safe score `DistinctScore(labels, peerStores minus
the source, source)` captured at construction.  `DistinctScore` itself lives
in a core source file absent from `src/`; per the spec it is only a pure
deterministic score function, so the statement quantifies over it. -/
theorem c8_distinct_score_filter :
    ∀ (DistinctScore : ScoreFn) (labels : List String) (stores : List StoreInfo)
      (source t : StoreInfo),
      (NewDistinctScoreFilter DistinctScore labels stores source).FilterSource t = false ∧
      (((NewDistinctScoreFilter DistinctScore labels stores source).FilterTarget
          DistinctScore t) = true ↔
        DistinctScore labels (stores.filter (fun s => s.Id ≠ source.Id)) t <
          DistinctScore labels (stores.filter (fun s => s.Id ≠ source.Id)) source) := by
  intro DistinctScore labels stores source t
  refine ⟨rfl, ?_⟩
  simp [NewDistinctScoreFilter, distinctScoreFilter.FilterTarget]

/-- A heartbeat whose approximate key count occupies the sign bit of
`int64` (used by the C9 counterexample). -/
def hbBig : RegionHeartbeatRequest :=
  { HRegion := metaA, HLeader := some peerV1, HDownPeers := [], HPendingPeers := [],
    BytesWritten := 0, BytesRead := 0, ApproximateSize := 0,
    ApproximateKeys := 2 ^ 63 }

/-- A small ordinary heartbeat (used by the C9 witness). -/
def hbSmall : RegionHeartbeatRequest :=
  { HRegion := metaA, HLeader := some peerV1, HDownPeers := [], HPendingPeers := [],
    BytesWritten := 17, BytesRead := 23, ApproximateSize := 3 * 2 ^ 20 + 5,
    ApproximateKeys := 42 }

/-- C9 counterexample: `RegionFromHeartbeat` stores the approximate key
count through the Go conversion `int64(heartbeat.GetApproximateKeys())`
(`region.go:100`); at `2^63` the two's-complement reinterpretation yields
`-2^63`, so this field is not stored verbatim. -/
theorem c9_heartbeat_counterexample :
    hbBig.ApproximateKeys = 2 ^ 63 ∧
    (RegionFromHeartbeat hbBig).ApproximateKeys = -(2 ^ 63 : Int) ∧
    (RegionFromHeartbeat hbBig).ApproximateKeys ≠ (2 ^ 63 : Int) := by
  refine ⟨rfl, ?_, ?_⟩ <;> decide

/-- C9 (amended): for every heartbeat (sizes being `uint64` values), the
approximate size is converted from bytes to MB by integer division with 1
substituted for a smaller quotient, and the leader, down peers, pending
peers, written/read bytes and region meta are stored verbatim; the
approximate key count is stored through the `uint64 -> int64` conversion,
which is the identity exactly below `2^63`. -/
theorem c9_heartbeat_amended :
    ∀ hb : RegionHeartbeatRequest, hb.ApproximateSize < 2 ^ 64 →
      (RegionFromHeartbeat hb).ApproximateSize =
        (if hb.ApproximateSize / 2 ^ 20 < 1 then 1
         else (hb.ApproximateSize / 2 ^ 20 : Int)) ∧
      (RegionFromHeartbeat hb).Region = hb.HRegion ∧
      (RegionFromHeartbeat hb).Leader = hb.HLeader ∧
      (RegionFromHeartbeat hb).DownPeers = hb.HDownPeers ∧
      (RegionFromHeartbeat hb).PendingPeers = hb.HPendingPeers ∧
      (RegionFromHeartbeat hb).WrittenBytes = hb.BytesWritten ∧
      (RegionFromHeartbeat hb).ReadBytes = hb.BytesRead ∧
      (RegionFromHeartbeat hb).ApproximateKeys = toInt64 hb.ApproximateKeys ∧
      (hb.ApproximateKeys < 2 ^ 63 →
        (RegionFromHeartbeat hb).ApproximateKeys = (hb.ApproximateKeys : Int)) := by
  have toInt64_small : ∀ n : Nat, n < 2 ^ 63 → toInt64 n = (n : Int) := by
    intro n hn
    have hn2 : n < 2 ^ 64 := by
      have : (2 : Nat) ^ 63 < 2 ^ 64 := by norm_num
      omega
    unfold toInt64
    rw [Nat.mod_eq_of_lt hn2, if_pos hn]
    omega
  intro hb hsize
  refine ⟨?_, rfl, rfl, rfl, rfl, rfl, rfl, rfl, fun hk => toInt64_small _ hk⟩
  show toInt64 (if hb.ApproximateSize / 2 ^ 20 < EmptyRegionApproximateSize then
      EmptyRegionApproximateSize else hb.ApproximateSize / 2 ^ 20) = _
  have hq : hb.ApproximateSize / 2 ^ 20 < 2 ^ 63 := by
    have h44 : hb.ApproximateSize / 2 ^ 20 < 2 ^ 44 :=
      Nat.div_lt_of_lt_mul (by norm_num at hsize ⊢; omega)
    have : (2 : Nat) ^ 44 < 2 ^ 63 := by norm_num
    omega
  by_cases hlt : hb.ApproximateSize / 2 ^ 20 < EmptyRegionApproximateSize
  · rw [if_pos hlt, if_pos (by simpa [EmptyRegionApproximateSize] using hlt)]
    rw [toInt64_small _ (by norm_num [EmptyRegionApproximateSize])]
    norm_num [EmptyRegionApproximateSize]
  · rw [if_neg hlt, if_neg (by simpa [EmptyRegionApproximateSize] using hlt)]
    exact toInt64_small _ hq

/-- C9 witness: a 3 MB + 5 byte heartbeat is floored to 3 MB and its other
fields survive verbatim. -/
theorem c9_heartbeat_amended_witness :
    hbSmall.ApproximateSize < 2 ^ 64 ∧
    (RegionFromHeartbeat hbSmall).ApproximateSize =
      (if hbSmall.ApproximateSize / 2 ^ 20 < 1 then 1
       else (hbSmall.ApproximateSize / 2 ^ 20 : Int)) :=
  ⟨by decide, (c9_heartbeat_amended hbSmall (by decide)).1⟩


theorem foldInsert_lookup (l : List Peer) :
    ∀ (acc : List (Nat × Peer)) (k : Nat),
      lookupA (l.foldl (fun m p => insertA m p.StoreId p) acc) k =
        match l.reverse.find? (fun p => p.StoreId = k) with
        | some q => some q
        | none => lookupA acc k := by
  induction l with
  | nil => intro acc k; rfl
  | cons x xs ih =>
      intro acc k
      simp only [List.foldl_cons, List.reverse_cons, List.find?_append]
      rw [ih]
      cases hf : xs.reverse.find? (fun p => p.StoreId = k) with
      | some q =>
          rfl
      | none =>
          dsimp only [Option.or]
          rw [lookupA_insertA]
          by_cases hx : x.StoreId = k
          · rw [if_pos hx.symm]
            have hfx : [x].find? (fun p => p.StoreId = k) = some x := by
              simp [List.find?, hx]
            rw [hfx]
          · rw [if_neg (fun he => hx he.symm)]
            have hfx : [x].find? (fun p => p.StoreId = k) = none := by
              simp [List.find?, hx]
            rw [hfx]

/-- Two voters sharing store 5 with no leader set (C10 counterexample). -/
def metaDup : RegionMeta :=
  { Id := 6, StartKey := [60], EndKey := [70], ConfVer := 1, Version := 1,
    Peers := [{ Id := 1, StoreId := 5, IsLearner := false },
              { Id := 2, StoreId := 5, IsLearner := false }] }

def regionDup : RegionInfo := NewRegionInfo metaDup none

/-- C10 counterexample: with a nil leader, `GetFollowers` keys the map by
store id, so of two voters on the same store only the later one survives —
not every voter is returned. -/
theorem c10_followers_counterexample :
    regionDup.Leader = none ∧
    ({ Id := 1, StoreId := 5, IsLearner := false } : Peer) ∈ regionDup.Voters ∧
    lookupA regionDup.GetFollowers 5 =
      some { Id := 2, StoreId := 5, IsLearner := false } ∧
    ¬ (∀ p ∈ regionDup.Voters, lookupA regionDup.GetFollowers p.StoreId = some p) := by
  refine ⟨rfl, by decide, by decide, by decide⟩

/-- C10 (amended): for a region with nil leader, `GetFollowers` maps every
voter's store id to a voter of that store (exactly the voter itself whenever
the voters' store ids are pairwise distinct — with duplicates the later voter
wins the shared key), and `GetFollower` returns a voter whenever the voter
set is non-empty: no voter is excluded as a leader match. -/
theorem c10_followers_amended :
    ∀ r : RegionInfo, r.Leader = none →
      (∀ p ∈ r.Voters, ∃ q, lookupA r.GetFollowers p.StoreId = some q ∧
        q ∈ r.Voters ∧ q.StoreId = p.StoreId) ∧
      ((r.Voters.map Peer.StoreId).Nodup →
        ∀ p ∈ r.Voters, lookupA r.GetFollowers p.StoreId = some p) ∧
      (r.Voters ≠ [] → ∃ q, r.GetFollower = some q ∧ q ∈ r.Voters) := by
  intro r hld
  have hGF : r.GetFollowers =
      r.Voters.foldl (fun m p => insertA m p.StoreId p) [] := by
    simp [RegionInfo.GetFollowers, RegionInfo.GetVoters, hld]
  have hlook : ∀ k, lookupA r.GetFollowers k =
      r.Voters.reverse.find? (fun p => p.StoreId = k) := by
    intro k
    rw [hGF, foldInsert_lookup]
    cases r.Voters.reverse.find? (fun p => p.StoreId = k) <;> rfl
  refine ⟨?_, ?_, ?_⟩
  · intro p hp
    have hpm : p ∈ r.Voters.reverse := List.mem_reverse.mpr hp
    cases hf : r.Voters.reverse.find? (fun p2 => p2.StoreId = p.StoreId) with
    | none =>
        have := List.find?_eq_none.mp hf p hpm
        simp at this
    | some q =>
        refine ⟨q, by rw [hlook]; exact hf, ?_, ?_⟩
        · exact List.mem_reverse.mp (List.mem_of_find?_eq_some hf)
        · simpa using List.find?_some hf
  · intro hnd p hp
    rw [hlook]
    cases hf : r.Voters.reverse.find? (fun p2 => p2.StoreId = p.StoreId) with
    | none =>
        have := List.find?_eq_none.mp hf p (List.mem_reverse.mpr hp)
        simp at this
    | some q =>
        have hqm : q ∈ r.Voters := List.mem_reverse.mp (List.mem_of_find?_eq_some hf)
        have hqs : q.StoreId = p.StoreId := by simpa using List.find?_some hf
        rw [List.inj_on_of_nodup_map hnd hqm hp hqs]
  · intro hne
    cases hv : r.Voters with
    | nil => exact absurd hv hne
    | cons a rest =>
        refine ⟨a, ?_, List.mem_cons_self _ _⟩
        simp [RegionInfo.GetFollower, RegionInfo.GetVoters, hld, hv, List.find?]

/-- C10 witness: on the no-leader sample region every voter is recovered from
the followers map and `GetFollower` yields a voter. -/
theorem c10_followers_amended_witness :
    regionNoLeader.Leader = none ∧
    ((∀ p ∈ regionNoLeader.Voters,
      lookupA regionNoLeader.GetFollowers p.StoreId = some p) ∧
     (∃ q, regionNoLeader.GetFollower = some q ∧ q ∈ regionNoLeader.Voters)) :=
  ⟨rfl,
    (c10_followers_amended regionNoLeader rfl).2.1 (by decide),
    (c10_followers_amended regionNoLeader rfl).2.2 (by decide)⟩

theorem write_read_other {h : Heap} {a b : Nat} (v : RegionInfo) (hne : b ≠ a) :
    (Heap.write h a v).read b = h.read b := by
  simp [Heap.write, Heap.read, hne]

theorem getRegionH_spec {s : RegionsInfoH} {h : Heap} {id : Nat} {h2 : Heap}
    {a : Nat} (hg : GetRegionH s h id = some (h2, a)) :
    a = h.next ∧ h2.next = h.next + 1 ∧ ∀ b, b ≠ h.next → h2.read b = h.read b := by
  unfold GetRegionH at hg
  cases hget : regionMapHGet (some s.regions) id with
  | none => rw [hget] at hg; simp at hg
  | some addr =>
      rw [hget] at hg
      simp only [CloneH, Heap.alloc, Option.some.injEq, Prod.mk.injEq] at hg
      obtain ⟨hh2, ha⟩ := hg
      refine ⟨ha.symm, ?_, ?_⟩
      · rw [← hh2]
      · intro b hb
        rw [← hh2]
        simp [Heap.read, hb]

theorem regionMapHGet_mem {rm : regionMapH} {id a : Nat}
    (h : regionMapHGet (some rm) id = some a) :
    a ∈ rm.m.map (fun q => q.2.addr) := by
  simp only [regionMapHGet] at h
  cases hl : lookupA rm.m id with
  | none => rw [hl] at h; simp at h
  | some e =>
      rw [hl] at h
      simp only [Option.map_some', Option.some.injEq] at h
      exact List.mem_map.mpr ⟨(id, e), lookupA_mem hl, h⟩

theorem regionMapHRandom_mem {rm : Option regionMapH} {k a : Nat}
    (h : regionMapHRandom rm k = some a) :
    ∃ rmv, rm = some rmv ∧ a ∈ rmv.m.map (fun q => q.2.addr) := by
  unfold regionMapHRandom at h
  split at h
  · simp at h
  · match rm, h with
    | some rmv, h => exact ⟨rmv, rfl, regionMapHGet_mem h⟩

theorem randRegionLoopH_mem {h : Heap} {rm : Option regionMapH}
    {picks : Nat → Nat} {opts : List (RegionInfo → Bool)} :
    ∀ {fuel i a : Nat}, randRegionLoopH h rm picks opts i fuel = some a →
      ∃ rmv, rm = some rmv ∧ a ∈ rmv.m.map (fun q => q.2.addr) := by
  intro fuel
  induction fuel with
  | zero => intro i a hr; simp [randRegionLoopH] at hr
  | succ fuel2 ih =>
      intro i a hr
      rw [randRegionLoopH] at hr
      cases hs : regionMapHRandom rm (picks i) with
      | none => rw [hs] at hr; simp at hr
      | some a0 =>
          rw [hs] at hr
          dsimp only at hr
          split at hr
          · injection hr with hr
            subst hr
            exact regionMapHRandom_mem hs
          · exact ih hr

theorem addrsOfBuckets_mem {buckets : List (Nat × regionMapH)} {sid a : Nat}
    {rm : regionMapH} (hl : lookupA buckets sid = some rm)
    (ha : a ∈ rm.m.map (fun q => q.2.addr)) : a ∈ addrsOfBuckets buckets := by
  induction buckets with
  | nil => simp [lookupA] at hl
  | cons p rest ih =>
      obtain ⟨k, v⟩ := p
      simp only [lookupA] at hl
      simp only [addrsOfBuckets, List.mem_append]
      split at hl
      · injection hl with hl
        subst hl
        exact Or.inl ha
      · exact Or.inr (ih hl)

theorem scanCollect_heap (s : RegionsInfoH) (limit : Nat) :
    ∀ (ms : List RegionMeta) (h : Heap) (acc : List (Option Nat)),
      h.next ≤ (scanCollect s limit h ms acc).1.next ∧
      ∀ b, b < h.next → (scanCollect s limit h ms acc).1.read b = h.read b := by
  intro ms
  induction ms with
  | nil => intro h acc; exact ⟨Nat.le_refl _, fun b _ => rfl⟩
  | cons meta rest ih =>
      intro h acc
      rw [scanCollect]
      cases hg : GetRegionH s h meta.Id with
      | none =>
          dsimp only
          split
          · exact ih h _
          · exact ⟨Nat.le_refl _, fun b _ => rfl⟩
      | some pr2 =>
          obtain ⟨h2, a⟩ := pr2
          obtain ⟨ha, hn, hread⟩ := getRegionH_spec hg
          dsimp only
          split
          · obtain ⟨ih1, ih2⟩ := ih h2 (some a :: acc)
            refine ⟨by omega, fun b hb => ?_⟩
            rw [ih2 b (by omega), hread b (by omega)]
          · exact ⟨(by omega : h.next ≤ h2.next), fun b hb => hread b (by omega)⟩

theorem scanCollect_mem (s : RegionsInfoH) (limit : Nat) :
    ∀ (ms : List RegionMeta) (h : Heap) (acc : List (Option Nat)) (a : Nat),
      some a ∈ (scanCollect s limit h ms acc).2 →
      some a ∈ acc ∨ h.next ≤ a := by
  intro ms
  induction ms with
  | nil =>
      intro h acc a hm
      exact Or.inl (List.mem_reverse.mp hm)
  | cons meta rest ih =>
      intro h acc a hm
      rw [scanCollect] at hm
      cases hg : GetRegionH s h meta.Id with
      | none =>
          rw [hg] at hm
          dsimp only at hm
          split at hm
          · rcases ih h _ a hm with hin | hge
            · rcases List.mem_cons.mp hin with hin | hin
              · simp at hin
              · exact Or.inl hin
            · exact Or.inr hge
          · rcases List.mem_cons.mp (List.mem_reverse.mp hm) with hin | hin
            · simp at hin
            · exact Or.inl hin
      | some pr2 =>
          obtain ⟨h2, a0⟩ := pr2
          obtain ⟨ha0, hn, _⟩ := getRegionH_spec hg
          rw [hg] at hm
          dsimp only at hm
          split at hm
          · rcases ih h2 _ a hm with hin | hge
            · rcases List.mem_cons.mp hin with hin | hin
              · injection hin with hin
                omega
              · exact Or.inl hin
            · exact Or.inr (by omega)
          · rcases List.mem_cons.mp (List.mem_reverse.mp hm) with hin | hin
            · injection hin with hin
              omega
            · exact Or.inl hin

/-- The aliasing contract of the query surface, for one well-formed state:
`GetRegion`, `SearchRegion` and `ScanRange` hand back freshly allocated
clones (mutating them cannot change any stored entry), while the three
random-sampling operations hand back a stored pointer itself. -/
def C2Concl (s : RegionsInfoH) (h : Heap) : Prop :=
  (∀ id h2 a, GetRegionH s h id = some (h2, a) →
    (∀ b ∈ storedAddrsH s, b ≠ a) ∧
    ∀ v, ∀ b ∈ storedAddrsH s, (Heap.write h2 a v).read b = h.read b) ∧
  (∀ key h2 a, searchRegionH s h key = some (h2, a) →
    (∀ b ∈ storedAddrsH s, b ≠ a) ∧
    ∀ v, ∀ b ∈ storedAddrsH s, (Heap.write h2 a v).read b = h.read b) ∧
  (∀ key limit h2 out, scanRangeH s h key limit = (h2, out) →
    ∀ a, some a ∈ out →
      (∀ b ∈ storedAddrsH s, b ≠ a) ∧
      ∀ v, ∀ b ∈ storedAddrsH s, (Heap.write h2 a v).read b = h.read b) ∧
  (∀ picks opts a, RandRegionH s h picks opts = some a → a ∈ storedAddrsH s) ∧
  (∀ storeID picks opts a, RandLeaderRegionH s h storeID picks opts = some a →
    a ∈ storedAddrsH s) ∧
  (∀ storeID picks opts a, RandFollowerRegionH s h storeID picks opts = some a →
    a ∈ storedAddrsH s)

/-- C2 (amended): on every well-formed state, `GetRegion`, `SearchRegion`
and `ScanRange` return deep clones — freshly allocated addresses disjoint
from everything the index stores, so writes through them leave every stored
entry unchanged — while `RandRegion`, `RandLeaderRegion` and
`RandFollowerRegion` return the stored pointer itself (`region.go:752-770`
returns the sample with no `Clone`), so writes through those mutate the
index. -/
theorem c2_query_clone_amended : ∀ (s : RegionsInfoH) (h : Heap), WFH s h → C2Concl s h := by
  intro s h hwf
  have hget : ∀ id h2 a, GetRegionH s h id = some (h2, a) →
      (∀ b ∈ storedAddrsH s, b ≠ a) ∧
      ∀ v, ∀ b ∈ storedAddrsH s, (Heap.write h2 a v).read b = h.read b := by
    intro id h2 a hg
    obtain ⟨ha, hn, hread⟩ := getRegionH_spec hg
    subst ha
    constructor
    · intro b hb
      have := hwf b hb
      omega
    · intro v b hb
      have hblt := hwf b hb
      rw [write_read_other v (by omega), hread b (by omega)]
  refine ⟨hget, ?_, ?_, ?_, ?_, ?_⟩
  · intro key h2 a hs
    unfold searchRegionH at hs
    cases ht : treeSearch s.tree key with
    | none => rw [ht] at hs; simp at hs
    | some m =>
        rw [ht] at hs
        exact hget _ _ _ hs
  · intro key limit h2 out hs a hmem
    have h2eq : (scanCollect s limit h (treeScanList s.tree key) []).1 = h2 :=
      congrArg Prod.fst hs
    have houteq : (scanCollect s limit h (treeScanList s.tree key) []).2 = out :=
      congrArg Prod.snd hs
    have hge : h.next ≤ a := by
      rcases scanCollect_mem s limit (treeScanList s.tree key) h [] a
          (by rw [houteq]; exact hmem) with hin | hge
      · simp at hin
      · exact hge
    obtain ⟨hmono, hpres⟩ := scanCollect_heap s limit (treeScanList s.tree key) h []
    constructor
    · intro b hb
      have := hwf b hb
      omega
    · intro v b hb
      have hblt := hwf b hb
      rw [write_read_other v (by omega), ← h2eq]
      exact hpres b hblt
  · intro picks opts a hr
    have hr2 : randRegionLoopH h (some s.regions) picks opts 0 randomRegionMaxRetry =
        some a := hr
    obtain ⟨rmv, hrm, hmem⟩ := randRegionLoopH_mem hr2
    injection hrm with hrm
    subst hrm
    simp only [storedAddrsH, List.mem_append]
    exact Or.inl (Or.inl (Or.inl (Or.inl hmem)))
  · intro storeID picks opts a hr
    have hr2 : randRegionLoopH h (lookupA s.leaders storeID) picks opts 0
        randomRegionMaxRetry = some a := hr
    obtain ⟨rmv, hrm, hmem⟩ := randRegionLoopH_mem hr2
    have hb := addrsOfBuckets_mem hrm hmem
    simp only [storedAddrsH, List.mem_append]
    exact Or.inl (Or.inl (Or.inl (Or.inr hb)))
  · intro storeID picks opts a hr
    have hr2 : randRegionLoopH h (lookupA s.followers storeID) picks opts 0
        randomRegionMaxRetry = some a := hr
    obtain ⟨rmv, hrm, hmem⟩ := randRegionLoopH_mem hr2
    have hb := addrsOfBuckets_mem hrm hmem
    simp only [storedAddrsH, List.mem_append]
    exact Or.inl (Or.inl (Or.inr hb))

/-- A one-region heap-level state: region id 1 stored at address 0, and a
heap whose allocation frontier is 1 (used by the C2 counterexample and
witness). -/
def s0C2 : RegionsInfoH :=
  { tree := [metaA]
    regions := { m := [(1, ⟨0, 0⟩)], ids := [1], totalSize := 5, totalKeys := 11 }
    leaders := [], followers := [], learners := [], pendingPeers := [] }

def h0C2 : Heap := { mem := fun _ => regionA, next := 1 }

/-- C2 counterexample: `RandRegion` returns the stored address 0 itself, and
writing through that pointer changes the payload the index stores at 0 —
the random-sampling operations do not return clones. -/
theorem c2_rand_alias_counterexample :
    RandRegionH s0C2 h0C2 (fun _ => 0) [] = some 0 ∧
    0 ∈ storedAddrsH s0C2 ∧
    (Heap.write h0C2 0 { regionA with WrittenBytes := 999 }).read 0 ≠ h0C2.read 0 := by
  refine ⟨by decide, by decide, by decide⟩

/-- C2 witness: the one-region state is well formed and enjoys the amended
aliasing contract. -/
theorem c2_query_clone_amended_witness : WFH s0C2 h0C2 ∧ C2Concl s0C2 h0C2 :=
  ⟨by decide, c2_query_clone_amended s0C2 h0C2 (by decide)⟩
